import Mathlib

/-!
# A shallow embedding of dogsdogsdogs' proposal operator

This file embeds `propose_then` (and its specialization `propose`) from
`src/dogsdogsdogs/src/operators/propose.rs` as a pure state-transition
system and proves properties of the embedded operator.

Modelling choices, in correspondence with the Rust source:

* Timestamps are a type `T` with a preorder (`G::Timestamp: Lattice`); the
  frontier of an input is a list of times, and `frontier.less_equal(t)`
  is `frLE`: some frontier element is `≤ t`.
* Multiplicities (`Tr::R: Monoid + Mul`) are instantiated at `Int`, the
  standard signed-count difference type.
* The arrangement's trace is its list of `(key, value, time, diff)`
  update tuples.  The cursor protocol (`seek_key`/`get_key`,
  `get_val`/`step_val`, `map_times`) is embedded as: `keyPresent` (the key
  occurs in storage), `valsOf` (the distinct values stored under the key)
  and `countAt` (the fold of `map_times` filtered to `time ≤ t`).
  `distinguish_since` and `advance_by` only authorize compaction that
  preserves these observations, so they leave the embedded contents
  unchanged; a batch delivered on the arrangement's stream appends its
  tuples to the held trace.
* The operator's per-round body (`binary_frontier`'s closure) becomes
  `roundStep`: drain input (a) into the stash, append input (b)'s batches
  to the trace, process every stash bucket whose capability time is closed,
  retain non-empty buckets, and drop the trace handle once input (a)'s
  frontier is empty and the stash is empty.
* The key selector `F: Fn(&P, &mut Tr::Key)` of `propose_then` always
  overwrites the shared key buffer in the uses made of it (`propose`
  writes `*k = key_selector(p)`), so it is embedded as a pure function
  `P → K`; the in-place buffer is an allocation optimization with no
  observable effect for such selectors.
* Rust's stable `sort_by` on extracted keys is embedded as a stable
  insertion sort; only the permutation property of the sort is used.
-/

namespace Propose

/-- A scheduling round's external stimuli: the data delivered on input (a)
(prefix updates grouped under their capability time), the batches delivered
on input (b) (arrangement update tuples), and the two input frontiers as
observed during the round. -/
structure Round (P K V T : Type) where
  input1 : List (T × List (P × T × Int))
  batches : List (List (K × V × T × Int))
  frontier1 : List T
  frontier2 : List T

/-- The operator's persistent state: the stash mapping capability times to
buffered `(prefix, time, diff)` updates, and the optionally-held trace
(`propose_trace`), carrying the arrangement contents while held. -/
structure OpState (P K V T : Type) where
  stash : List (T × List (P × T × Int))
  trace : Option (List (K × V × T × Int))

variable {P K V O T : Type}

/-- `frontier.less_equal(t)`: some element of the frontier is `≤ t`.
A time `t` is *closed* when this is `false`. -/
def frLE [Preorder T] [DecidableRel (fun a b : T => a ≤ b)] (f : List T) (t : T) : Bool :=
  f.any (fun x => decide (x ≤ t))

/-- Append newly delivered data to the bucket of a capability time,
creating the bucket if absent (`stash.entry(cap).or_insert(..).extend(..)`). -/
def insertStash [DecidableEq T] :
    List (T × List (P × T × Int)) → T → List (P × T × Int) → List (T × List (P × T × Int))
  | [], c, data => [(c, data)]
  | (c', b) :: rest, c, data =>
      if c' = c then (c', b ++ data) :: rest else (c', b) :: insertStash rest c data

/-- Drain input (a): stash every delivery under its capability. -/
def drainStash [DecidableEq T] (stash : List (T × List (P × T × Int)))
    (deliveries : List (T × List (P × T × Int))) : List (T × List (P × T × Int)) :=
  deliveries.foldl (fun st cd => insertStash st cd.1 cd.2) stash

/-- The accumulated multiplicity of value `v` under key `k` at times
`≤ t`: the fold the operator performs with `cursor.map_times`, filtered by
`t.less_equal(time)`. -/
def countAt [DecidableEq K] [DecidableEq V] [Preorder T]
    [DecidableRel (fun a b : T => a ≤ b)]
    (B : List (K × V × T × Int)) (k : K) (v : V) (t : T) : Int :=
  (B.map (fun u => if u.1 = k ∧ u.2.1 = v ∧ u.2.2.1 ≤ t then u.2.2.2 else 0)).sum

/-- Whether the key physically occurs in the trace's storage
(`cursor.get_key(&storage) == Some(&key)` after `seek_key`). -/
def keyPresent [DecidableEq K] (B : List (K × V × T × Int)) (k : K) : Bool :=
  B.any (fun u => decide (u.1 = k))

/-- The distinct values stored under key `k`: the values the cursor's
`get_val`/`step_val` loop visits. -/
def valsOf [DecidableEq K] [DecidableEq V] (B : List (K × V × T × Int)) (k : K) : List V :=
  (B.filterMap (fun u => if u.1 = k then some u.2.1 else none)).dedup

/-- The cursor's inner loop over the values of the sought key: for each
value accumulate `count`, multiply by the entry's diff, and emit when the
product is non-zero. -/
def emitVals [DecidableEq K] [DecidableEq V] [Preorder T]
    [DecidableRel (fun a b : T => a ≤ b)]
    (output_func : P → V → O) (p : P) (t : T) (d : Int)
    (B : List (K × V × T × Int)) (k : K) : List V → List (O × T × Int)
  | [] => []
  | v :: vs =>
      (if countAt B k v t * d ≠ 0 then [(output_func p v, t, countAt B k v t * d)] else []) ++
        emitVals output_func p t d B k vs

/-- Process one stash entry of a bucket whose capability is closed: if the
entry's own time is not closed it is left untouched; otherwise seek the
extracted key, emit the weighted proposals, and zero the entry's diff. -/
def processEntry [DecidableEq K] [DecidableEq V] [Preorder T]
    [DecidableRel (fun a b : T => a ≤ b)]
    (key_selector : P → K) (output_func : P → V → O) (f2 : List T)
    (B : List (K × V × T × Int)) (e : P × T × Int) : (P × T × Int) × List (O × T × Int) :=
  if frLE f2 e.2.1 then (e, [])
  else
    let k := key_selector e.1
    let out := if keyPresent B k then emitVals output_func e.1 e.2.1 e.2.2 B k (valsOf B k)
               else []
    ((e.1, e.2.1, 0), out)

/-- Insert `x` into a list using the boolean comparison `le`. -/
def insertLe (le : α → α → Bool) (x : α) : List α → List α
  | [] => [x]
  | y :: ys => if le x y then x :: y :: ys else y :: insertLe le x ys

/-- A stable insertion sort, embedding the Rust `sort_by`. -/
def sortByLe (le : α → α → Bool) : List α → List α
  | [] => []
  | x :: xs => insertLe le x (sortByLe le xs)

/-- Process a bucket whose capability time is closed: sort entries by
extracted key for in-order cursor traversal, process each entry, and
retain only entries whose diff is non-zero. -/
def processBucket [DecidableEq K] [DecidableEq V] [LinearOrder K] [Preorder T]
    [DecidableRel (fun a b : T => a ≤ b)]
    (key_selector : P → K) (output_func : P → V → O) (f2 : List T)
    (B : List (K × V × T × Int)) (bucket : List (P × T × Int)) :
    List (P × T × Int) × List (O × T × Int) :=
  let sorted := sortByLe (fun x y => decide (key_selector x.1 ≤ key_selector y.1)) bucket
  let pairs := sorted.map (processEntry key_selector output_func f2 B)
  ((pairs.map Prod.fst).filter (fun e => decide (e.2.2 ≠ 0)),
   (pairs.map Prod.snd).flatten)

/-- Walk all currently retained capabilities: a bucket whose capability
time is closed is processed now, the others are deferred untouched. -/
def processStash [DecidableEq K] [DecidableEq V] [LinearOrder K] [Preorder T]
    [DecidableRel (fun a b : T => a ≤ b)]
    (key_selector : P → K) (output_func : P → V → O) (f2 : List T)
    (B : List (K × V × T × Int)) (st : List (T × List (P × T × Int))) :
    List (T × List (P × T × Int)) × List (O × T × Int) :=
  (st.map (fun cb =>
     if frLE f2 cb.1 then cb
     else (cb.1, (processBucket key_selector output_func f2 B cb.2).1)),
   (st.map (fun cb =>
     if frLE f2 cb.1 then []
     else (processBucket key_selector output_func f2 B cb.2).2)).flatten)

/-- One invocation of the operator's closure: drain input (a) into the
stash; append input (b)'s batches to the held trace; if the trace is held,
process every bucket at a closed capability; drop empty buckets; release
the trace handle when input (a)'s frontier is empty and the stash is
empty. -/
def roundStep [DecidableEq T] [DecidableEq K] [DecidableEq V] [LinearOrder K] [Preorder T]
    [DecidableRel (fun a b : T => a ≤ b)]
    (key_selector : P → K) (output_func : P → V → O)
    (s : OpState P K V T) (r : Round P K V T) : OpState P K V T × List (O × T × Int) :=
  let stash1 := drainStash s.stash r.input1
  match s.trace with
  | none => (⟨stash1.filter (fun cb => !cb.2.isEmpty), none⟩, [])
  | some B =>
      let B1 := B ++ r.batches.flatten
      let pr := processStash key_selector output_func r.frontier2 B1 stash1
      let stash2 := pr.1.filter (fun cb => !cb.2.isEmpty)
      let tr := if r.frontier1.isEmpty && stash2.isEmpty then none else some B1
      (⟨stash2, tr⟩, pr.2)

/-- Run the operator over a finite schedule of rounds, concatenating the
emitted output sessions. -/
def runRounds [DecidableEq T] [DecidableEq K] [DecidableEq V] [LinearOrder K] [Preorder T]
    [DecidableRel (fun a b : T => a ≤ b)]
    (key_selector : P → K) (output_func : P → V → O)
    (s : OpState P K V T) : List (Round P K V T) → OpState P K V T × List (O × T × Int)
  | [] => (s, [])
  | r :: rs =>
      let sr := roundStep key_selector output_func s r
      let rest := runRounds key_selector output_func sr.1 rs
      (rest.1, sr.2 ++ rest.2)

/-- `propose`: the specialization of `propose_then` whose key function
overwrites the key buffer with `key_selector(p)` and whose output function
pairs the prefix with the value. -/
def runPropose [DecidableEq T] [DecidableEq K] [DecidableEq V] [LinearOrder K] [Preorder T]
    [DecidableRel (fun a b : T => a ≤ b)]
    (key_selector : P → K) (s : OpState P K V T) (rs : List (Round P K V T)) :
    OpState P K V T × List ((P × V) × T × Int) :=
  runRounds (fun p => key_selector p) (fun p v => (p, v)) s rs

/-- All prefix updates delivered on input (a) across a schedule. -/
def delivered (rs : List (Round P K V T)) : List (P × T × Int) :=
  (rs.map (fun r => (r.input1.map Prod.snd).flatten)).flatten

/-- All arrangement update tuples delivered on input (b) across a schedule. -/
def flatBatches (rs : List (Round P K V T)) : List (K × V × T × Int) :=
  (rs.map (fun r => r.batches.flatten)).flatten

/-- Input (b)'s frontier contract: each batch tuple delivered in a later
round is at a time greater-or-equal to the frontier reported earlier, so a
closed time can receive no further arrangement updates. -/
def frontier2Ok [Preorder T] [DecidableRel (fun a b : T => a ≤ b)] :
    List (Round P K V T) → Bool
  | [] => true
  | r :: rs => (flatBatches rs).all (fun u => frLE r.frontier2 u.2.2.1) && frontier2Ok rs

/-- Input (a)'s frontier contract: each capability delivered in a later
round is at a time greater-or-equal to the frontier reported earlier; in
particular an empty frontier promises no further prefix deliveries. -/
def frontier1Ok [Preorder T] [DecidableRel (fun a b : T => a ≤ b)] :
    List (Round P K V T) → Bool
  | [] => true
  | r :: rs =>
      (rs.all (fun r' => r'.input1.all (fun cd => frLE r.frontier1 cd.1))) && frontier1Ok rs

/-- The schedule ends with input (b)'s frontier empty: every buffered time
is closed by the final round. -/
def lastClosed : List (Round P K V T) → Bool
  | [] => false
  | [r] => r.frontier2.isEmpty
  | _ :: r' :: rs => lastClosed (r' :: rs)

/-- The sum of emitted diffs carried by payload `o` at times selected by
`tsel`. -/
def sumE [DecidableEq O] (o : O) (tsel : T → Bool) (E : List (O × T × Int)) : Int :=
  (E.map (fun u => if u.1 = o ∧ tsel u.2.1 then u.2.2 else 0)).sum

/-- Ghost accounting: the output eventually owed for one buffered prefix
update, measured against the complete arrangement history `Ball`. -/
def entryPend [DecidableEq K] [DecidableEq V] [DecidableEq O] [Preorder T]
    [DecidableRel (fun a b : T => a ≤ b)]
    (key_selector : P → K) (output_func : P → V → O)
    (Ball : List (K × V × T × Int)) (o : O) (tsel : T → Bool) (e : P × T × Int) : Int :=
  if tsel e.2.1 then
    ((valsOf Ball (key_selector e.1)).map
      (fun v => if output_func e.1 v = o
                then countAt Ball (key_selector e.1) v e.2.1 * e.2.2 else 0)).sum
  else 0

/-- Ghost accounting for a whole bucket. -/
def bucketPend [DecidableEq K] [DecidableEq V] [DecidableEq O] [Preorder T]
    [DecidableRel (fun a b : T => a ≤ b)]
    (key_selector : P → K) (output_func : P → V → O)
    (Ball : List (K × V × T × Int)) (o : O) (tsel : T → Bool)
    (b : List (P × T × Int)) : Int :=
  (b.map (entryPend key_selector output_func Ball o tsel)).sum

/-- Ghost accounting for the whole stash. -/
def stashPend [DecidableEq K] [DecidableEq V] [DecidableEq O] [Preorder T]
    [DecidableRel (fun a b : T => a ≤ b)]
    (key_selector : P → K) (output_func : P → V → O)
    (Ball : List (K × V × T × Int)) (o : O) (tsel : T → Bool)
    (stash : List (T × List (P × T × Int))) : Int :=
  (stash.map (fun cb => bucketPend key_selector output_func Ball o tsel cb.2)).sum

/-! ## Basic lemmas about frontiers, sums and the sort -/

theorem frLE_nil [Preorder T] [DecidableRel (fun a b : T => a ≤ b)] (t : T) :
    frLE ([] : List T) t = false := rfl

theorem frLE_trans [Preorder T] [DecidableRel (fun a b : T => a ≤ b)]
    {f : List T} {a t : T} (h : frLE f a = true) (hat : a ≤ t) : frLE f t = true := by
  simp only [frLE, List.any_eq_true, decide_eq_true_eq] at h ⊢
  obtain ⟨x, hx, hxa⟩ := h
  exact ⟨x, hx, le_trans hxa hat⟩

theorem sumE_nil [DecidableEq O] (o : O) (tsel : T → Bool) :
    sumE o tsel ([] : List (O × T × Int)) = 0 := rfl

theorem sumE_append [DecidableEq O] (o : O) (tsel : T → Bool)
    (a b : List (O × T × Int)) : sumE o tsel (a ++ b) = sumE o tsel a + sumE o tsel b := by
  simp [sumE, List.map_append, List.sum_append]

theorem sumE_flatten [DecidableEq O] (o : O) (tsel : T → Bool)
    (L : List (List (O × T × Int))) :
    sumE o tsel L.flatten = (L.map (sumE o tsel)).sum := by
  induction L with
  | nil => simp [sumE]
  | cons x xs ih => simp [List.flatten_cons, sumE_append, ih]

theorem sum_map_filter_of_zero {α : Type} (l : List α) (f : α → Int) (q : α → Bool)
    (h : ∀ x ∈ l, q x = false → f x = 0) :
    ((l.filter q).map f).sum = (l.map f).sum := by
  induction l with
  | nil => simp
  | cons x xs ih =>
      have ihx := ih (fun y hy hqy => h y (List.mem_cons_of_mem _ hy) hqy)
      by_cases hq : q x
      · simp [List.filter_cons, hq, ihx]
      · have hx0 : f x = 0 := h x (List.mem_cons_self _ _) (by simpa using hq)
        simp [List.filter_cons, hq, ihx, hx0]

theorem insertLe_perm {α : Type} (le : α → α → Bool) (x : α) (l : List α) :
    (insertLe le x l).Perm (x :: l) := by
  induction l with
  | nil => exact List.Perm.refl _
  | cons y ys ih =>
      by_cases h : le x y
      · simp [insertLe, h]
      · simp only [insertLe, h, if_neg]
        exact ((ih.cons y).trans (List.Perm.swap x y ys)).trans (List.Perm.refl _)

theorem sortByLe_perm {α : Type} (le : α → α → Bool) (l : List α) :
    (sortByLe le l).Perm l := by
  induction l with
  | nil => exact List.Perm.refl _
  | cons x xs ih => exact (insertLe_perm le x (sortByLe le xs)).trans (ih.cons x)

/-! ## Lemmas about the trace observations -/

theorem countAt_append [DecidableEq K] [DecidableEq V] [Preorder T]
    [DecidableRel (fun a b : T => a ≤ b)]
    (B1 B2 : List (K × V × T × Int)) (k : K) (v : V) (t : T) :
    countAt (B1 ++ B2) k v t = countAt B1 k v t + countAt B2 k v t := by
  simp [countAt, List.map_append, List.sum_append]

theorem countAt_future_zero [DecidableEq K] [DecidableEq V] [Preorder T]
    [DecidableRel (fun a b : T => a ≤ b)]
    {f2 : List T} {B2 : List (K × V × T × Int)} {t : T}
    (hB2 : ∀ u ∈ B2, frLE f2 u.2.2.1 = true) (ht : frLE f2 t = false)
    (k : K) (v : V) : countAt B2 k v t = 0 := by
  apply List.sum_eq_zero
  intro x hx
  rw [List.mem_map] at hx
  obtain ⟨u, hu, hux⟩ := hx
  rw [← hux]
  by_cases hc : u.1 = k ∧ u.2.1 = v ∧ u.2.2.1 ≤ t
  · exact absurd (frLE_trans (hB2 u hu) hc.2.2) (by simp [ht])
  · simp [hc]

theorem mem_valsOf [DecidableEq K] [DecidableEq V]
    {B : List (K × V × T × Int)} {k : K} {v : V} :
    v ∈ valsOf B k ↔ ∃ u ∈ B, u.1 = k ∧ u.2.1 = v := by
  simp only [valsOf, List.mem_dedup, List.mem_filterMap]
  constructor
  · rintro ⟨u, hu, hv⟩
    by_cases hk : u.1 = k
    · simp only [hk, if_pos, Option.some.injEq] at hv
      exact ⟨u, hu, hk, hv⟩
    · simp [hk] at hv
  · rintro ⟨u, hu, hk, hv⟩
    exact ⟨u, hu, by simp [hk, hv]⟩

theorem valsOf_nodup [DecidableEq K] [DecidableEq V]
    (B : List (K × V × T × Int)) (k : K) : (valsOf B k).Nodup :=
  List.nodup_dedup _

theorem countAt_zero_of_not_mem_valsOf [DecidableEq K] [DecidableEq V] [Preorder T]
    [DecidableRel (fun a b : T => a ≤ b)]
    {B : List (K × V × T × Int)} {k : K} {v : V} (h : v ∉ valsOf B k) (t : T) :
    countAt B k v t = 0 := by
  apply List.sum_eq_zero
  intro x hx
  rw [List.mem_map] at hx
  obtain ⟨u, hu, hux⟩ := hx
  rw [← hux]
  by_cases hc : u.1 = k ∧ u.2.1 = v ∧ u.2.2.1 ≤ t
  · exact absurd (mem_valsOf.mpr ⟨u, hu, hc.1, hc.2.1⟩) h
  · simp [hc]

theorem valsOf_nil_of_keyAbsent [DecidableEq K] [DecidableEq V]
    {B : List (K × V × T × Int)} {k : K} (h : keyPresent B k = false) :
    valsOf B k = [] := by
  rw [List.eq_nil_iff_forall_not_mem]
  intro v hv
  obtain ⟨u, hu, hk, _⟩ := mem_valsOf.mp hv
  have : B.any (fun u => decide (u.1 = k)) = true := by
    rw [List.any_eq_true]
    exact ⟨u, hu, by simp [hk]⟩
  rw [keyPresent] at h
  simp [h] at this

theorem sum_map_eq_of_subset_zero {α : Type} [DecidableEq α]
    {L1 L2 : List α} (hn1 : L1.Nodup) (hn2 : L2.Nodup)
    (hsub : ∀ v ∈ L1, v ∈ L2) (g : α → Int) (hz : ∀ v ∈ L2, v ∉ L1 → g v = 0) :
    (L1.map g).sum = (L2.map g).sum := by
  rw [← List.sum_toFinset g hn1, ← List.sum_toFinset g hn2]
  refine Finset.sum_subset ?_ ?_
  · intro v hv
    rw [List.mem_toFinset] at hv ⊢
    exact hsub v hv
  · intro v hv hnv
    rw [List.mem_toFinset] at hv hnv
    exact hz v hv hnv

theorem sum_map_ite_eq_of_nodup {α : Type} [DecidableEq α]
    {L : List α} (hn : L.Nodup) (v : α) (A : Int) :
    (L.map (fun x => if x = v then A else 0)).sum = if v ∈ L then A else 0 := by
  rw [← List.sum_toFinset _ hn]
  rw [Finset.sum_ite_eq' L.toFinset v (fun _ => A)]
  simp [List.mem_toFinset]

/-! ## Lemmas about the cursor's value loop -/

theorem mem_emitVals [DecidableEq K] [DecidableEq V] [Preorder T]
    [DecidableRel (fun a b : T => a ≤ b)]
    {output_func : P → V → O} {p : P} {t : T} {d : Int}
    {B : List (K × V × T × Int)} {k : K} {vs : List V} {u : O × T × Int} :
    u ∈ emitVals output_func p t d B k vs ↔
      ∃ v ∈ vs, u = (output_func p v, t, countAt B k v t * d) ∧ countAt B k v t * d ≠ 0 := by
  induction vs with
  | nil => simp [emitVals]
  | cons v vs ih =>
      by_cases h : countAt B k v t * d ≠ 0
      · simp only [emitVals, if_pos h, List.mem_append, ih, List.mem_cons,
          List.not_mem_nil, or_false]
        constructor
        · rintro (hu | ⟨v', hv', hu, hne⟩)
          · exact ⟨v, Or.inl rfl, hu, h⟩
          · exact ⟨v', Or.inr hv', hu, hne⟩
        · rintro ⟨v', hv' | hv', hu, hne⟩
          · exact Or.inl (hv' ▸ hu)
          · exact Or.inr ⟨v', hv', hu, hne⟩
      · simp only [emitVals, if_neg h, List.nil_append, ih]
        constructor
        · rintro ⟨v', hv', hu, hne⟩
          exact ⟨v', List.mem_cons_of_mem _ hv', hu, hne⟩
        · rintro ⟨v', hv', hu, hne⟩
          rcases List.mem_cons.mp hv' with hv'' | hv''
          · exact absurd (hv'' ▸ hne) h
          · exact ⟨v', hv'', hu, hne⟩

theorem sumE_emitVals [DecidableEq K] [DecidableEq V] [DecidableEq O] [Preorder T]
    [DecidableRel (fun a b : T => a ≤ b)]
    (o : O) (tsel : T → Bool)
    (output_func : P → V → O) (p : P) (t : T) (d : Int)
    (B : List (K × V × T × Int)) (k : K) (vs : List V) :
    sumE o tsel (emitVals output_func p t d B k vs) =
      if tsel t then
        (vs.map (fun v => if output_func p v = o then countAt B k v t * d else 0)).sum
      else 0 := by
  induction vs with
  | nil => simp [emitVals, sumE]
  | cons v vs ih =>
      rw [emitVals, sumE_append, ih]
      by_cases ht : tsel t
      · simp only [ht, if_pos, List.map_cons, List.sum_cons]
        by_cases h : countAt B k v t * d ≠ 0
        · by_cases ho : output_func p v = o
          · simp [sumE, h, ho, ht]
          · simp [sumE, h, ho, ht]
        · push_neg at h
          by_cases ho : output_func p v = o
          · simp [sumE, h, ho]
          · simp [sumE, h, ho]
      · simp only [ht, if_neg, Bool.false_eq_true, not_false_iff, add_zero]
        by_cases h : countAt B k v t * d ≠ 0
        · simp [sumE, h, ht]
        · simp [sumE, h, ht]

/-! ## Lemmas about entry processing -/

theorem processEntry_open [DecidableEq K] [DecidableEq V] [Preorder T]
    [DecidableRel (fun a b : T => a ≤ b)]
    (key_selector : P → K) (output_func : P → V → O) (f2 : List T)
    (B : List (K × V × T × Int)) {e : P × T × Int}
    (h : frLE f2 e.2.1 = true) :
    processEntry key_selector output_func f2 B e = (e, []) := by
  simp [processEntry, h]

theorem processEntry_closed_fst [DecidableEq K] [DecidableEq V] [Preorder T]
    [DecidableRel (fun a b : T => a ≤ b)]
    (key_selector : P → K) (output_func : P → V → O) (f2 : List T)
    (B : List (K × V × T × Int)) {e : P × T × Int}
    (h : frLE f2 e.2.1 = false) :
    (processEntry key_selector output_func f2 B e).1 = (e.1, e.2.1, 0) := by
  simp [processEntry, h]

theorem processEntry_closed_snd [DecidableEq K] [DecidableEq V] [Preorder T]
    [DecidableRel (fun a b : T => a ≤ b)]
    (key_selector : P → K) (output_func : P → V → O) (f2 : List T)
    (B : List (K × V × T × Int)) {e : P × T × Int}
    (h : frLE f2 e.2.1 = false) :
    (processEntry key_selector output_func f2 B e).2 =
      emitVals output_func e.1 e.2.1 e.2.2 B (key_selector e.1)
        (valsOf B (key_selector e.1)) := by
  by_cases hk : keyPresent B (key_selector e.1)
  · simp [processEntry, h, hk]
  · rw [valsOf_nil_of_keyAbsent (by simpa using hk)]
    simp [processEntry, h, hk, emitVals]

theorem mem_processEntry_closed_time [DecidableEq K] [DecidableEq V] [Preorder T]
    [DecidableRel (fun a b : T => a ≤ b)]
    {key_selector : P → K} {output_func : P → V → O} {f2 : List T}
    {B : List (K × V × T × Int)} {e : P × T × Int} {u : O × T × Int}
    (hu : u ∈ (processEntry key_selector output_func f2 B e).2) :
    u.2.1 = e.2.1 ∧ frLE f2 e.2.1 = false ∧ u.2.2 ≠ 0 := by
  by_cases h : frLE f2 e.2.1
  · rw [processEntry_open _ _ _ _ h] at hu
    simp at hu
  · have h' : frLE f2 e.2.1 = false := by simpa using h
    rw [processEntry_closed_snd _ _ _ _ h'] at hu
    obtain ⟨v, _, hueq, hne⟩ := mem_emitVals.mp hu
    exact ⟨by rw [hueq], h', by rw [hueq]; exact hne⟩

theorem sumE_processEntry_closed [DecidableEq K] [DecidableEq V] [DecidableEq O] [Preorder T]
    [DecidableRel (fun a b : T => a ≤ b)]
    (key_selector : P → K) (output_func : P → V → O) (f2 : List T)
    (B Bfut : List (K × V × T × Int)) (o : O) (tsel : T → Bool) {e : P × T × Int}
    (hcl : frLE f2 e.2.1 = false)
    (hfut : ∀ u ∈ Bfut, frLE f2 u.2.2.1 = true) :
    sumE o tsel (processEntry key_selector output_func f2 B e).2 =
      entryPend key_selector output_func (B ++ Bfut) o tsel e := by
  rw [processEntry_closed_snd _ _ _ _ hcl, sumE_emitVals, entryPend]
  by_cases ht : tsel e.2.1
  · simp only [ht, if_pos]
    have hcount : ∀ v : V,
        countAt (B ++ Bfut) (key_selector e.1) v e.2.1 =
          countAt B (key_selector e.1) v e.2.1 := by
      intro v
      rw [countAt_append, countAt_future_zero hfut hcl, add_zero]
    rw [List.map_congr_left (l := valsOf (B ++ Bfut) (key_selector e.1))
      (g := fun v => if output_func e.1 v = o
            then countAt B (key_selector e.1) v e.2.1 * e.2.2 else 0)
      (fun v _ => by rw [hcount v])]
    refine sum_map_eq_of_subset_zero (valsOf_nodup B _) (valsOf_nodup (B ++ Bfut) _) ?_ _ ?_
    · intro v hv
      obtain ⟨u, hu, hk, hveq⟩ := mem_valsOf.mp hv
      exact mem_valsOf.mpr ⟨u, List.mem_append_left _ hu, hk, hveq⟩
    · intro v _ hnv
      rw [countAt_zero_of_not_mem_valsOf hnv]
      simp
  · simp [ht]

theorem entryPend_of_diff_zero [DecidableEq K] [DecidableEq V] [DecidableEq O] [Preorder T]
    [DecidableRel (fun a b : T => a ≤ b)]
    (key_selector : P → K) (output_func : P → V → O)
    (Ball : List (K × V × T × Int)) (o : O) (tsel : T → Bool)
    {e : P × T × Int} (he : e.2.2 = 0) :
    entryPend key_selector output_func Ball o tsel e = 0 := by
  rw [entryPend]
  by_cases ht : tsel e.2.1
  · simp only [ht, if_pos]
    apply List.sum_eq_zero
    intro x hx
    rw [List.mem_map] at hx
    obtain ⟨v, _, hvx⟩ := hx
    rw [← hvx, he]
    by_cases hv : output_func e.1 v = o <;> simp [hv]
  · simp [ht]

/-! ## Lemmas about bucket processing -/

theorem bucketPend_append [DecidableEq K] [DecidableEq V] [DecidableEq O] [Preorder T]
    [DecidableRel (fun a b : T => a ≤ b)]
    (key_selector : P → K) (output_func : P → V → O)
    (Ball : List (K × V × T × Int)) (o : O) (tsel : T → Bool)
    (b1 b2 : List (P × T × Int)) :
    bucketPend key_selector output_func Ball o tsel (b1 ++ b2) =
      bucketPend key_selector output_func Ball o tsel b1 +
        bucketPend key_selector output_func Ball o tsel b2 := by
  simp [bucketPend, List.map_append, List.sum_append]

theorem bucketPend_perm [DecidableEq K] [DecidableEq V] [DecidableEq O] [Preorder T]
    [DecidableRel (fun a b : T => a ≤ b)]
    (key_selector : P → K) (output_func : P → V → O)
    (Ball : List (K × V × T × Int)) (o : O) (tsel : T → Bool)
    {b1 b2 : List (P × T × Int)} (h : b1.Perm b2) :
    bucketPend key_selector output_func Ball o tsel b1 =
      bucketPend key_selector output_func Ball o tsel b2 :=
  (h.map _).sum_eq

theorem processBucket_conservation [DecidableEq K] [DecidableEq V] [DecidableEq O]
    [LinearOrder K] [Preorder T] [DecidableRel (fun a b : T => a ≤ b)]
    (key_selector : P → K) (output_func : P → V → O) (f2 : List T)
    (B Bfut : List (K × V × T × Int)) (o : O) (tsel : T → Bool)
    (hfut : ∀ u ∈ Bfut, frLE f2 u.2.2.1 = true) (b : List (P × T × Int)) :
    sumE o tsel (processBucket key_selector output_func f2 B b).2 +
      bucketPend key_selector output_func (B ++ Bfut) o tsel
        (processBucket key_selector output_func f2 B b).1
      = bucketPend key_selector output_func (B ++ Bfut) o tsel b := by
  rw [processBucket]
  simp only [List.map_map]
  set sorted := sortByLe (fun x y => decide (key_selector x.1 ≤ key_selector y.1)) b with hs
  have hperm : sorted.Perm b := sortByLe_perm _ b
  rw [sumE_flatten, List.map_map]
  have hfst : ((((sorted.map (Prod.fst ∘ processEntry key_selector output_func f2 B)).filter
        (fun e => decide (e.2.2 ≠ 0))).map
          (entryPend key_selector output_func (B ++ Bfut) o tsel)).sum : Int) =
      (((sorted.map (Prod.fst ∘ processEntry key_selector output_func f2 B)).map
          (entryPend key_selector output_func (B ++ Bfut) o tsel)).sum : Int) := by
    apply sum_map_filter_of_zero
    intro x _ hqx
    have hx0 : x.2.2 = 0 := by
      by_contra hne
      simp [hne] at hqx
    exact entryPend_of_diff_zero _ _ _ _ _ hx0
  rw [bucketPend, hfst, List.map_map, ← List.sum_map_add]
  have hpt : ∀ e ∈ sorted,
      ((sumE o tsel ∘ (Prod.snd ∘ processEntry key_selector output_func f2 B)) e +
        (entryPend key_selector output_func (B ++ Bfut) o tsel ∘
          (Prod.fst ∘ processEntry key_selector output_func f2 B)) e) =
      entryPend key_selector output_func (B ++ Bfut) o tsel e := by
    intro e _
    by_cases hcl : frLE f2 e.2.1
    · rw [Function.comp_apply, Function.comp_apply, Function.comp_apply,
        Function.comp_apply, processEntry_open _ _ _ _ hcl]
      simp [sumE]
    · have hcl' : frLE f2 e.2.1 = false := by simpa using hcl
      rw [Function.comp_apply, Function.comp_apply, Function.comp_apply,
        Function.comp_apply,
        sumE_processEntry_closed _ _ _ _ _ _ _ hcl' hfut,
        processEntry_closed_fst _ _ _ _ hcl',
        entryPend_of_diff_zero _ _ _ _ _ (e := (e.1, e.2.1, 0)) rfl, add_zero]
  rw [List.map_congr_left hpt]
  exact bucketPend_perm _ _ _ _ _ hperm

/-! ## Lemmas about the stash walk and the drain -/

theorem stashPend_filter_nonempty [DecidableEq K] [DecidableEq V] [DecidableEq O] [Preorder T]
    [DecidableRel (fun a b : T => a ≤ b)]
    (key_selector : P → K) (output_func : P → V → O)
    (Ball : List (K × V × T × Int)) (o : O) (tsel : T → Bool)
    (st : List (T × List (P × T × Int))) :
    stashPend key_selector output_func Ball o tsel (st.filter (fun cb => !cb.2.isEmpty)) =
      stashPend key_selector output_func Ball o tsel st := by
  apply sum_map_filter_of_zero
  intro cb _ hq
  have hnil : cb.2 = [] := by
    rcases h : cb.2 with _ | _
    · rfl
    · rw [h] at hq
      simp at hq
  rw [hnil]
  rfl

theorem processStash_conservation [DecidableEq K] [DecidableEq V] [DecidableEq O]
    [LinearOrder K] [Preorder T] [DecidableRel (fun a b : T => a ≤ b)]
    (key_selector : P → K) (output_func : P → V → O) (f2 : List T)
    (B Bfut : List (K × V × T × Int)) (o : O) (tsel : T → Bool)
    (hfut : ∀ u ∈ Bfut, frLE f2 u.2.2.1 = true)
    (st : List (T × List (P × T × Int))) :
    sumE o tsel (processStash key_selector output_func f2 B st).2 +
      stashPend key_selector output_func (B ++ Bfut) o tsel
        (processStash key_selector output_func f2 B st).1
      = stashPend key_selector output_func (B ++ Bfut) o tsel st := by
  rw [processStash, sumE_flatten, List.map_map, stashPend, List.map_map, ← List.sum_map_add]
  rw [stashPend]
  apply congrArg List.sum
  apply List.map_congr_left
  intro cb _
  by_cases hc : frLE f2 cb.1
  · simp [hc, sumE]
  · have hc' : frLE f2 cb.1 = false := by simpa using hc
    simp only [Function.comp_apply, hc', Bool.false_eq_true, if_neg, not_false_iff]
    exact processBucket_conservation key_selector output_func f2 B Bfut o tsel hfut cb.2

theorem insertStash_pend [DecidableEq T] [DecidableEq K] [DecidableEq V] [DecidableEq O]
    [Preorder T] [DecidableRel (fun a b : T => a ≤ b)]
    (key_selector : P → K) (output_func : P → V → O)
    (Ball : List (K × V × T × Int)) (o : O) (tsel : T → Bool)
    (st : List (T × List (P × T × Int))) (c : T) (data : List (P × T × Int)) :
    stashPend key_selector output_func Ball o tsel (insertStash st c data) =
      stashPend key_selector output_func Ball o tsel st +
        bucketPend key_selector output_func Ball o tsel data := by
  induction st with
  | nil => simp [insertStash, stashPend]
  | cons cb rest ih =>
      rcases cb with ⟨c', b⟩
      by_cases hc : c' = c
      · simp only [insertStash, hc, if_pos]
        simp [stashPend, bucketPend_append]
        ring
      · simp only [insertStash, hc, if_neg, not_false_iff]
        simp [stashPend] at ih ⊢
        rw [ih]
        ring

theorem drainStash_pend [DecidableEq T] [DecidableEq K] [DecidableEq V] [DecidableEq O]
    [Preorder T] [DecidableRel (fun a b : T => a ≤ b)]
    (key_selector : P → K) (output_func : P → V → O)
    (Ball : List (K × V × T × Int)) (o : O) (tsel : T → Bool)
    (ds : List (T × List (P × T × Int))) (st : List (T × List (P × T × Int))) :
    stashPend key_selector output_func Ball o tsel (drainStash st ds) =
      stashPend key_selector output_func Ball o tsel st +
        (ds.map (fun cd => bucketPend key_selector output_func Ball o tsel cd.2)).sum := by
  induction ds generalizing st with
  | nil => simp [drainStash]
  | cons cd ds ih =>
      simp only [drainStash, List.foldl_cons] at ih ⊢
      rw [ih, insertStash_pend]
      simp only [List.map_cons, List.sum_cons]
      ring

/-! ## Round-level lemmas -/

theorem roundStep_none_eq [DecidableEq T] [DecidableEq K] [DecidableEq V] [LinearOrder K]
    [Preorder T] [DecidableRel (fun a b : T => a ≤ b)]
    (key_selector : P → K) (output_func : P → V → O)
    {s : OpState P K V T} (r : Round P K V T) (h : s.trace = none) :
    roundStep key_selector output_func s r =
      (⟨(drainStash s.stash r.input1).filter (fun cb => !cb.2.isEmpty), none⟩, []) := by
  rw [roundStep, h]

theorem roundStep_some_eq [DecidableEq T] [DecidableEq K] [DecidableEq V] [LinearOrder K]
    [Preorder T] [DecidableRel (fun a b : T => a ≤ b)]
    (key_selector : P → K) (output_func : P → V → O)
    {s : OpState P K V T} (r : Round P K V T) {C : List (K × V × T × Int)}
    (h : s.trace = some C) :
    roundStep key_selector output_func s r =
      (⟨((processStash key_selector output_func r.frontier2 (C ++ r.batches.flatten)
            (drainStash s.stash r.input1)).1.filter (fun cb => !cb.2.isEmpty)),
        if r.frontier1.isEmpty &&
            ((processStash key_selector output_func r.frontier2 (C ++ r.batches.flatten)
              (drainStash s.stash r.input1)).1.filter (fun cb => !cb.2.isEmpty)).isEmpty
        then none else some (C ++ r.batches.flatten)⟩,
       (processStash key_selector output_func r.frontier2 (C ++ r.batches.flatten)
         (drainStash s.stash r.input1)).2) := by
  rw [roundStep, h]

theorem sum_map_flatten {α : Type} (L : List (List α)) (f : α → Int) :
    ((L.flatten).map f).sum = (L.map (fun l => (l.map f).sum)).sum := by
  induction L with
  | nil => simp
  | cons x xs ih =>
      simp only [List.flatten_cons, List.map_append, List.sum_append, ih,
        List.map_cons, List.sum_cons]

theorem bucketPend_sum_eq [DecidableEq K] [DecidableEq V] [DecidableEq O] [Preorder T]
    [DecidableRel (fun a b : T => a ≤ b)]
    (key_selector : P → K) (output_func : P → V → O)
    (Ball : List (K × V × T × Int)) (o : O) (tsel : T → Bool)
    (ds : List (T × List (P × T × Int))) :
    (ds.map (fun cd => bucketPend key_selector output_func Ball o tsel cd.2)).sum =
      (((ds.map Prod.snd).flatten).map
        (entryPend key_selector output_func Ball o tsel)).sum := by
  rw [sum_map_flatten, List.map_map]
  rfl

theorem roundStep_conservation_some [DecidableEq T] [DecidableEq K] [DecidableEq V]
    [DecidableEq O] [LinearOrder K] [Preorder T] [DecidableRel (fun a b : T => a ≤ b)]
    (key_selector : P → K) (output_func : P → V → O) (o : O) (tsel : T → Bool)
    {s : OpState P K V T} (r : Round P K V T) {C : List (K × V × T × Int)}
    (hB : s.trace = some C) (Bfut : List (K × V × T × Int))
    (hfut : ∀ u ∈ Bfut, frLE r.frontier2 u.2.2.1 = true) :
    sumE o tsel (roundStep key_selector output_func s r).2 +
      stashPend key_selector output_func ((C ++ r.batches.flatten) ++ Bfut) o tsel
        (roundStep key_selector output_func s r).1.stash
      = stashPend key_selector output_func ((C ++ r.batches.flatten) ++ Bfut) o tsel s.stash +
        (r.input1.map (fun cd =>
          bucketPend key_selector output_func ((C ++ r.batches.flatten) ++ Bfut) o tsel
            cd.2)).sum := by
  rw [roundStep_some_eq key_selector output_func r hB]
  rw [stashPend_filter_nonempty]
  rw [processStash_conservation key_selector output_func r.frontier2 _ Bfut o tsel hfut]
  rw [drainStash_pend]

/-! ## Execution-level conservation -/

theorem flatBatches_cons (r : Round P K V T) (rs : List (Round P K V T)) :
    flatBatches (r :: rs) = r.batches.flatten ++ flatBatches rs := by
  simp [flatBatches]

theorem delivered_cons (r : Round P K V T) (rs : List (Round P K V T)) :
    delivered (r :: rs) = (r.input1.map Prod.snd).flatten ++ delivered rs := by
  simp [delivered]

theorem frontier2Ok_cons [Preorder T] [DecidableRel (fun a b : T => a ≤ b)]
    {r : Round P K V T} {rs : List (Round P K V T)}
    (h : frontier2Ok (r :: rs) = true) :
    (∀ u ∈ flatBatches rs, frLE r.frontier2 u.2.2.1 = true) ∧ frontier2Ok rs = true := by
  rw [frontier2Ok, Bool.and_eq_true, List.all_eq_true] at h
  exact h

theorem frontier1Ok_cons [Preorder T] [DecidableRel (fun a b : T => a ≤ b)]
    {r : Round P K V T} {rs : List (Round P K V T)}
    (h : frontier1Ok (r :: rs) = true) :
    (∀ r' ∈ rs, ∀ cd ∈ r'.input1, frLE r.frontier1 cd.1 = true) ∧ frontier1Ok rs = true := by
  rw [frontier1Ok, Bool.and_eq_true, List.all_eq_true] at h
  refine ⟨?_, h.2⟩
  intro r' hr' cd hcd
  have := h.1 r' hr'
  rw [List.all_eq_true] at this
  exact this cd hcd

theorem runRounds_conservation [DecidableEq T] [DecidableEq K] [DecidableEq V]
    [DecidableEq O] [LinearOrder K] [Preorder T] [DecidableRel (fun a b : T => a ≤ b)]
    (key_selector : P → K) (output_func : P → V → O) (o : O) (tsel : T → Bool) :
    ∀ (rs : List (Round P K V T)) (s : OpState P K V T) (Ball : List (K × V × T × Int)),
    (∀ C, s.trace = some C → Ball = C ++ flatBatches rs) →
    frontier2Ok rs = true →
    sumE o tsel (runRounds key_selector output_func s rs).2 +
      stashPend key_selector output_func Ball o tsel
        (runRounds key_selector output_func s rs).1.stash
      = stashPend key_selector output_func Ball o tsel s.stash +
        ((delivered rs).map (entryPend key_selector output_func Ball o tsel)).sum := by
  intro rs
  induction rs with
  | nil =>
      intro s Ball _ _
      simp [runRounds, sumE, delivered]
  | cons r rs ih =>
      intro s Ball hB h2
      obtain ⟨hfutAll, h2tail⟩ := frontier2Ok_cons h2
      rw [runRounds]
      dsimp only
      rw [delivered_cons, List.map_append, List.sum_append]
      rw [sumE_append]
      cases hs : s.trace with
      | none =>
          rw [roundStep_none_eq key_selector output_func r hs]
          dsimp only
          have ihs := ih ⟨(drainStash s.stash r.input1).filter (fun cb => !cb.2.isEmpty),
            none⟩ Ball (by intro C hC; simp at hC) h2tail
          simp only at ihs
          rw [sumE_nil]
          have hdrain : stashPend key_selector output_func Ball o tsel
              ((drainStash s.stash r.input1).filter (fun cb => !cb.2.isEmpty)) =
              stashPend key_selector output_func Ball o tsel s.stash +
                (((r.input1.map Prod.snd).flatten).map
                  (entryPend key_selector output_func Ball o tsel)).sum := by
            rw [stashPend_filter_nonempty, drainStash_pend, bucketPend_sum_eq]
          omega
      | some C =>
          have hfut : ∀ u ∈ flatBatches rs, frLE r.frontier2 u.2.2.1 = true := hfutAll
          have hBall : Ball = (C ++ r.batches.flatten) ++ flatBatches rs := by
            rw [hB C hs, flatBatches_cons, List.append_assoc]
          have hround := roundStep_conservation_some key_selector output_func o tsel r hs
            (flatBatches rs) hfut
          rw [← hBall] at hround
          have hB' : ∀ C', (roundStep key_selector output_func s r).1.trace = some C' →
              Ball = C' ++ flatBatches rs := by
            intro C' hC'
            rw [roundStep_some_eq key_selector output_func r hs] at hC'
            simp only at hC'
            by_cases hcond : r.frontier1.isEmpty &&
                ((processStash key_selector output_func r.frontier2 (C ++ r.batches.flatten)
                  (drainStash s.stash r.input1)).1.filter (fun cb => !cb.2.isEmpty)).isEmpty
            · rw [if_pos hcond] at hC'
              exact absurd hC' (by simp)
            · rw [if_neg hcond] at hC'
              have : C ++ r.batches.flatten = C' := by
                injection hC'
              rw [← this]
              exact hBall
          have ihs := ih (roundStep key_selector output_func s r).1 Ball hB' h2tail
          have hdeliv : (r.input1.map (fun cd =>
              bucketPend key_selector output_func Ball o tsel cd.2)).sum =
              (((r.input1.map Prod.snd).flatten).map
                (entryPend key_selector output_func Ball o tsel)).sum :=
            bucketPend_sum_eq key_selector output_func Ball o tsel r.input1
          omega

/-! ## Termination and final-flush lemmas -/

theorem processBucket_fst_nil_of_f2_nil [DecidableEq K] [DecidableEq V] [LinearOrder K]
    [Preorder T] [DecidableRel (fun a b : T => a ≤ b)]
    (key_selector : P → K) (output_func : P → V → O)
    (B : List (K × V × T × Int)) (b : List (P × T × Int)) :
    (processBucket key_selector output_func ([] : List T) B b).1 = [] := by
  rw [processBucket]
  simp only [List.map_map]
  rw [List.filter_eq_nil_iff]
  intro x hx
  rw [List.mem_map] at hx
  obtain ⟨e, _, hex⟩ := hx
  rw [← hex, Function.comp_apply, processEntry_closed_fst _ _ _ _ (frLE_nil e.2.1)]
  simp

theorem roundStep_stash_nil_of_f2_nil [DecidableEq T] [DecidableEq K] [DecidableEq V]
    [DecidableEq O] [LinearOrder K] [Preorder T] [DecidableRel (fun a b : T => a ≤ b)]
    (key_selector : P → K) (output_func : P → V → O)
    {s : OpState P K V T} {r : Round P K V T} {C : List (K × V × T × Int)}
    (hs : s.trace = some C) (hf2 : r.frontier2 = []) :
    (roundStep key_selector output_func s r).1.stash = [] := by
  rw [roundStep_some_eq key_selector output_func r hs]
  dsimp only
  rw [List.filter_eq_nil_iff]
  intro cb hcb
  rw [processStash, List.mem_map] at hcb
  obtain ⟨cb0, _, hcb0⟩ := hcb
  rw [hf2, frLE_nil, if_neg (by simp)] at hcb0
  rw [← hcb0]
  simp [processBucket_fst_nil_of_f2_nil]

theorem runRounds_of_trace_none [DecidableEq T] [DecidableEq K] [DecidableEq V]
    [LinearOrder K] [Preorder T] [DecidableRel (fun a b : T => a ≤ b)]
    (key_selector : P → K) (output_func : P → V → O) :
    ∀ (rs : List (Round P K V T)) (s : OpState P K V T), s.trace = none →
    (runRounds key_selector output_func s rs).1.trace = none ∧
      (runRounds key_selector output_func s rs).2 = [] := by
  intro rs
  induction rs with
  | nil => intro s hs; exact ⟨hs, rfl⟩
  | cons r rs ih =>
      intro s hs
      rw [runRounds]
      dsimp only
      rw [roundStep_none_eq key_selector output_func r hs]
      dsimp only
      have := ih ⟨(drainStash s.stash r.input1).filter (fun cb => !cb.2.isEmpty), none⟩ rfl
      exact ⟨this.1, by rw [this.2, List.nil_append]⟩

theorem runRounds_final_stash_nil [DecidableEq T] [DecidableEq K] [DecidableEq V]
    [DecidableEq O] [LinearOrder K] [Preorder T] [DecidableRel (fun a b : T => a ≤ b)]
    (key_selector : P → K) (output_func : P → V → O) :
    ∀ (rs : List (Round P K V T)) (s : OpState P K V T),
    frontier1Ok rs = true → lastClosed rs = true →
    (s.trace = none → s.stash = [] ∧ ∀ r' ∈ rs, r'.input1 = []) →
    (runRounds key_selector output_func (O := O) s rs).1.stash = [] := by
  intro rs
  induction rs with
  | nil => intro s _ hl _; exact absurd hl (by simp [lastClosed])
  | cons r rs ih =>
      intro s h1 hl hinv
      obtain ⟨h1head, h1tail⟩ := frontier1Ok_cons h1
      rw [runRounds]
      dsimp only
      cases hs : s.trace with
      | none =>
          obtain ⟨hst, hin⟩ := hinv hs
          have hr1 : r.input1 = [] := hin r (List.mem_cons_self _ _)
          rw [roundStep_none_eq key_selector output_func r hs]
          dsimp only
          have hdr : drainStash s.stash r.input1 = ([] : List (T × List (P × T × Int))) := by
            rw [hst, hr1]
            rfl
          rw [hdr]
          cases rs with
          | nil => rfl
          | cons r' rs' =>
              apply ih ⟨[], none⟩ h1tail (by simpa [lastClosed] using hl)
              intro _
              exact ⟨rfl, fun r'' hr'' => hin r'' (List.mem_cons_of_mem _ hr'')⟩
      | some C =>
          cases rs with
          | nil =>
              have hf2 : r.frontier2 = [] := by
                rw [lastClosed] at hl
                exact List.isEmpty_iff.mp hl
              rw [runRounds]
              exact roundStep_stash_nil_of_f2_nil key_selector output_func hs hf2
          | cons r' rs' =>
              apply ih (roundStep key_selector output_func s r).1 h1tail
                (by simpa [lastClosed] using hl)
              intro htr
              rw [roundStep_some_eq key_selector output_func r hs] at htr ⊢
              dsimp only at htr ⊢
              by_cases hcond : r.frontier1.isEmpty &&
                  ((processStash key_selector output_func r.frontier2 (C ++ r.batches.flatten)
                    (drainStash s.stash r.input1)).1.filter (fun cb => !cb.2.isEmpty)).isEmpty
              · rw [Bool.and_eq_true] at hcond
                refine ⟨List.isEmpty_iff.mp hcond.2, ?_⟩
                have hf1 : r.frontier1 = [] := List.isEmpty_iff.mp hcond.1
                intro r'' hr''
                rw [List.eq_nil_iff_forall_not_mem]
                intro cd hcd
                have := h1head r'' hr'' cd hcd
                rw [hf1, frLE_nil] at this
                exact absurd this (by simp)
              · rw [if_neg hcond] at htr
                exact absurd htr (by simp)

/-! ## Shape lemmas about emitted updates and retained entries -/

/-- All entries currently buffered anywhere in a stash. -/
def allEntries (st : List (T × List (P × T × Int))) : List (P × T × Int) :=
  (st.map Prod.snd).flatten

theorem mem_processBucket_fst [DecidableEq K] [DecidableEq V] [LinearOrder K]
    [Preorder T] [DecidableRel (fun a b : T => a ≤ b)]
    {key_selector : P → K} {output_func : P → V → O} {f2 : List T}
    {B : List (K × V × T × Int)} {b : List (P × T × Int)} {e : P × T × Int}
    (he : e ∈ (processBucket key_selector output_func f2 B b).1) :
    frLE f2 e.2.1 = true ∧ e.2.2 ≠ 0 ∧ e ∈ b := by
  rw [processBucket] at he
  simp only [List.map_map] at he
  rw [List.mem_filter] at he
  obtain ⟨hmem, hq⟩ := he
  have hne : e.2.2 ≠ 0 := by simpa using hq
  rw [List.mem_map] at hmem
  obtain ⟨x, hx, hxe⟩ := hmem
  by_cases hcl : frLE f2 x.2.1
  · rw [Function.comp_apply, processEntry_open _ _ _ _ hcl] at hxe
    have hxb : x ∈ b := ((sortByLe_perm _ b).mem_iff).mp hx
    have hex : x = e := hxe
    subst hex
    exact ⟨hcl, hne, hxb⟩
  · have hcl' : frLE f2 x.2.1 = false := by simpa using hcl
    rw [Function.comp_apply, processEntry_closed_fst _ _ _ _ hcl'] at hxe
    rw [← hxe] at hne
    simp at hne

theorem mem_processBucket_snd [DecidableEq K] [DecidableEq V] [LinearOrder K]
    [Preorder T] [DecidableRel (fun a b : T => a ≤ b)]
    {key_selector : P → K} {output_func : P → V → O} {f2 : List T}
    {B : List (K × V × T × Int)} {b : List (P × T × Int)} {u : O × T × Int}
    (hu : u ∈ (processBucket key_selector output_func f2 B b).2) :
    ∃ e ∈ b, u ∈ (processEntry key_selector output_func f2 B e).2 := by
  rw [processBucket] at hu
  simp only [List.map_map] at hu
  rw [List.mem_flatten] at hu
  obtain ⟨l, hl, hul⟩ := hu
  rw [List.mem_map] at hl
  obtain ⟨x, hx, hxl⟩ := hl
  exact ⟨x, ((sortByLe_perm _ b).mem_iff).mp hx, by rw [← hxl] at hul; exact hul⟩

theorem mem_processBucket_snd_closed [DecidableEq K] [DecidableEq V] [LinearOrder K]
    [Preorder T] [DecidableRel (fun a b : T => a ≤ b)]
    {key_selector : P → K} {output_func : P → V → O} {f2 : List T}
    {B : List (K × V × T × Int)} {b : List (P × T × Int)} {u : O × T × Int}
    (hu : u ∈ (processBucket key_selector output_func f2 B b).2) :
    frLE f2 u.2.1 = false ∧ u.2.2 ≠ 0 := by
  obtain ⟨e, _, hue⟩ := mem_processBucket_snd hu
  obtain ⟨hteq, hcl, hne⟩ := mem_processEntry_closed_time hue
  rw [hteq]
  exact ⟨hcl, hne⟩

theorem mem_roundStep_out [DecidableEq T] [DecidableEq K] [DecidableEq V] [LinearOrder K]
    [Preorder T] [DecidableRel (fun a b : T => a ≤ b)]
    {key_selector : P → K} {output_func : P → V → O}
    {s : OpState P K V T} {r : Round P K V T} {u : O × T × Int}
    (hu : u ∈ (roundStep key_selector output_func s r).2) :
    frLE r.frontier2 u.2.1 = false ∧ u.2.2 ≠ 0 := by
  cases hs : s.trace with
  | none =>
      rw [roundStep_none_eq key_selector output_func r hs] at hu
      simp at hu
  | some C =>
      rw [roundStep_some_eq key_selector output_func r hs] at hu
      dsimp only at hu
      rw [processStash, List.mem_flatten] at hu
      obtain ⟨l, hl, hul⟩ := hu
      rw [List.mem_map] at hl
      obtain ⟨cb, _, hcbl⟩ := hl
      by_cases hc : frLE r.frontier2 cb.1
      · rw [if_pos hc] at hcbl
        rw [← hcbl] at hul
        simp at hul
      · rw [if_neg hc] at hcbl
        rw [← hcbl] at hul
        exact mem_processBucket_snd_closed hul

theorem mem_allEntries {st : List (T × List (P × T × Int))} {e : P × T × Int} :
    e ∈ allEntries st ↔ ∃ cb ∈ st, e ∈ cb.2 := by
  simp only [allEntries, List.mem_flatten, List.mem_map]
  constructor
  · rintro ⟨l, ⟨cb, hcb, hcbl⟩, hel⟩
    exact ⟨cb, hcb, by rw [hcbl]; exact hel⟩
  · rintro ⟨cb, hcb, he⟩
    exact ⟨cb.2, ⟨cb, hcb, rfl⟩, he⟩

theorem mem_insertStash [DecidableEq T]
    {st : List (T × List (P × T × Int))} {c : T} {data : List (P × T × Int)}
    {e : P × T × Int} (he : e ∈ allEntries (insertStash st c data)) :
    e ∈ allEntries st ∨ e ∈ data := by
  induction st with
  | nil =>
      obtain ⟨cb, hcb, hecb⟩ := mem_allEntries.mp he
      rw [insertStash, List.mem_singleton] at hcb
      rw [hcb] at hecb
      exact Or.inr hecb
  | cons cb0 rest ih =>
      rcases cb0 with ⟨c', b⟩
      obtain ⟨cb, hcb, hecb⟩ := mem_allEntries.mp he
      by_cases hc : c' = c
      · rw [insertStash, if_pos hc, List.mem_cons] at hcb
        rcases hcb with hcb | hcb
        · rw [hcb] at hecb
          rcases List.mem_append.mp hecb with hb | hd
          · exact Or.inl (mem_allEntries.mpr ⟨(c', b), List.mem_cons_self _ _, hb⟩)
          · exact Or.inr hd
        · exact Or.inl (mem_allEntries.mpr ⟨cb, List.mem_cons_of_mem _ hcb, hecb⟩)
      · rw [insertStash, if_neg hc, List.mem_cons] at hcb
        rcases hcb with hcb | hcb
        · exact Or.inl (mem_allEntries.mpr ⟨cb, by rw [hcb]; exact List.mem_cons_self _ _,
            hecb⟩)
        · rcases ih (mem_allEntries.mpr ⟨cb, hcb, hecb⟩) with h | h
          · obtain ⟨cb', hcb', hecb'⟩ := mem_allEntries.mp h
            exact Or.inl (mem_allEntries.mpr ⟨cb', List.mem_cons_of_mem _ hcb', hecb'⟩)
          · exact Or.inr h

theorem mem_drainStash [DecidableEq T]
    {ds : List (T × List (P × T × Int))} :
    ∀ {st : List (T × List (P × T × Int))} {e : P × T × Int},
    e ∈ allEntries (drainStash st ds) →
    e ∈ allEntries st ∨ ∃ cd ∈ ds, e ∈ cd.2 := by
  induction ds with
  | nil => intro st e he; exact Or.inl he
  | cons cd ds ih =>
      intro st e he
      simp only [drainStash, List.foldl_cons] at he
      rcases ih he with h | h
      · rcases mem_insertStash h with h' | h'
        · exact Or.inl h'
        · exact Or.inr ⟨cd, List.mem_cons_self _ _, h'⟩
      · obtain ⟨cd', hcd', he'⟩ := h
        exact Or.inr ⟨cd', List.mem_cons_of_mem _ hcd', he'⟩

theorem mem_roundStep_stash [DecidableEq T] [DecidableEq K] [DecidableEq V] [LinearOrder K]
    [Preorder T] [DecidableRel (fun a b : T => a ≤ b)]
    {key_selector : P → K} {output_func : P → V → O}
    {s : OpState P K V T} {r : Round P K V T} {e : P × T × Int}
    (he : e ∈ allEntries (roundStep key_selector output_func s r).1.stash) :
    e.2.2 ≠ 0 ∨ e ∈ allEntries (drainStash s.stash r.input1) := by
  cases hs : s.trace with
  | none =>
      rw [roundStep_none_eq key_selector output_func r hs] at he
      dsimp only at he
      refine Or.inr ?_
      simp only [allEntries, List.mem_flatten, List.mem_map] at he ⊢
      obtain ⟨l, ⟨cb, hcb, hcbl⟩, hel⟩ := he
      exact ⟨l, ⟨cb, (List.mem_filter.mp hcb).1, hcbl⟩, hel⟩
  | some C =>
      rw [roundStep_some_eq key_selector output_func r hs] at he
      dsimp only at he
      simp only [allEntries, List.mem_flatten, List.mem_map] at he
      obtain ⟨l, ⟨cb, hcb, hcbl⟩, hel⟩ := he
      have hcb' := (List.mem_filter.mp hcb).1
      rw [processStash, List.mem_map] at hcb'
      obtain ⟨cb0, hcb0, hcb0'⟩ := hcb'
      by_cases hc : frLE r.frontier2 cb0.1
      · rw [if_pos hc] at hcb0'
        refine Or.inr ?_
        simp only [allEntries, List.mem_flatten, List.mem_map]
        exact ⟨l, ⟨cb0, hcb0, by rw [hcb0']; rw [hcbl]⟩, hel⟩
      · rw [if_neg hc] at hcb0'
        have : e ∈ (processBucket key_selector output_func r.frontier2
            (C ++ r.batches.flatten) cb0.2).1 := by
          have : l = (processBucket key_selector output_func r.frontier2
              (C ++ r.batches.flatten) cb0.2).1 := by
            rw [← hcbl, ← hcb0']
          rw [← this]
          exact hel
        exact Or.inl (mem_processBucket_fst this).2.1

/-! ## Counting, cancellation and permutation invariance -/

theorem processBucket_fst_perm_filter [DecidableEq K] [DecidableEq V]
    [LinearOrder K] [Preorder T] [DecidableRel (fun a b : T => a ≤ b)]
    (key_selector : P → K) (output_func : P → V → O) (f2 : List T)
    (B : List (K × V × T × Int)) (b : List (P × T × Int)) :
    ((processBucket key_selector output_func f2 B b).1).Perm
      (b.filter (fun x => frLE f2 x.2.1 && decide (x.2.2 ≠ 0))) := by
  rw [processBucket]
  dsimp only
  rw [List.map_map, List.filter_map]
  have hfilter : List.filter
        ((fun x => decide (x.2.2 ≠ 0)) ∘
          (Prod.fst ∘ processEntry key_selector output_func f2 B))
        (sortByLe (fun x y => decide (key_selector x.1 ≤ key_selector y.1)) b) =
      List.filter (fun x => frLE f2 x.2.1 && decide (x.2.2 ≠ 0))
        (sortByLe (fun x y => decide (key_selector x.1 ≤ key_selector y.1)) b) := by
    apply List.filter_congr
    intro x _
    by_cases hcl : frLE f2 x.2.1
    · rw [Function.comp_apply, Function.comp_apply, processEntry_open _ _ _ _ hcl, hcl,
        Bool.true_and]
    · have hcl' : frLE f2 x.2.1 = false := by simpa using hcl
      rw [Function.comp_apply, Function.comp_apply,
        processEntry_closed_fst _ _ _ _ hcl', hcl', Bool.false_and]
      simp
  rw [hfilter]
  have hmap : List.map (Prod.fst ∘ processEntry key_selector output_func f2 B)
        (List.filter (fun x => frLE f2 x.2.1 && decide (x.2.2 ≠ 0))
          (sortByLe (fun x y => decide (key_selector x.1 ≤ key_selector y.1)) b)) =
      List.filter (fun x => frLE f2 x.2.1 && decide (x.2.2 ≠ 0))
        (sortByLe (fun x y => decide (key_selector x.1 ≤ key_selector y.1)) b) := by
    have hid : ∀ x ∈ List.filter (fun x => frLE f2 x.2.1 && decide (x.2.2 ≠ 0))
        (sortByLe (fun x y => decide (key_selector x.1 ≤ key_selector y.1)) b),
        (Prod.fst ∘ processEntry key_selector output_func f2 B) x = x := by
      intro x hx
      have hx' := List.of_mem_filter hx
      rw [Bool.and_eq_true] at hx'
      rw [Function.comp_apply, processEntry_open _ _ _ _ hx'.1]
    rw [List.map_congr_left hid, List.map_id']
  rw [hmap]
  exact (sortByLe_perm _ b).filter _

theorem processBucket_fst_nil_of_all_closed [DecidableEq K] [DecidableEq V]
    [LinearOrder K] [Preorder T] [DecidableRel (fun a b : T => a ≤ b)]
    (key_selector : P → K) (output_func : P → V → O) (f2 : List T)
    (B : List (K × V × T × Int)) {b : List (P × T × Int)}
    (hall : ∀ e ∈ b, frLE f2 e.2.1 = false) :
    (processBucket key_selector output_func f2 B b).1 = [] := by
  rw [processBucket]
  dsimp only
  rw [List.map_map, List.filter_eq_nil_iff]
  intro x hx
  rw [List.mem_map] at hx
  obtain ⟨y, hy, hyx⟩ := hx
  have hyb : y ∈ b := ((sortByLe_perm _ b).mem_iff).mp hy
  rw [← hyx, Function.comp_apply, processEntry_closed_fst _ _ _ _ (hall y hyb)]
  simp

theorem entryPend_add_neg [DecidableEq K] [DecidableEq V] [DecidableEq O] [Preorder T]
    [DecidableRel (fun a b : T => a ≤ b)]
    (key_selector : P → K) (output_func : P → V → O)
    (Ball : List (K × V × T × Int)) (o : O) (tsel : T → Bool)
    (p : P) (t : T) (d : Int) :
    entryPend key_selector output_func Ball o tsel (p, t, d) +
      entryPend key_selector output_func Ball o tsel (p, t, -d) = 0 := by
  rw [entryPend, entryPend]
  dsimp only
  by_cases ht : tsel t
  · rw [if_pos ht, if_pos ht, ← List.sum_map_add]
    apply List.sum_eq_zero
    intro x hx
    rw [List.mem_map] at hx
    obtain ⟨v, _, hvx⟩ := hx
    rw [← hvx]
    by_cases ho : output_func p v = o
    · rw [if_pos ho, if_pos ho]
      ring
    · rw [if_neg ho, if_neg ho, add_zero]
  · rw [if_neg (by simpa using ht), if_neg (by simpa using ht), add_zero]

theorem countAt_perm [DecidableEq K] [DecidableEq V] [Preorder T]
    [DecidableRel (fun a b : T => a ≤ b)]
    {B1 B2 : List (K × V × T × Int)} (h : B1.Perm B2) (k : K) (v : V) (t : T) :
    countAt B1 k v t = countAt B2 k v t :=
  (h.map _).sum_eq

theorem valsOf_perm [DecidableEq K] [DecidableEq V]
    {B1 B2 : List (K × V × T × Int)} (h : B1.Perm B2) (k : K) :
    (valsOf B1 k).Perm (valsOf B2 k) :=
  (h.filterMap _).dedup

theorem entryPend_perm [DecidableEq K] [DecidableEq V] [DecidableEq O] [Preorder T]
    [DecidableRel (fun a b : T => a ≤ b)]
    (key_selector : P → K) (output_func : P → V → O)
    {B1 B2 : List (K × V × T × Int)} (h : B1.Perm B2) (o : O) (tsel : T → Bool)
    (e : P × T × Int) :
    entryPend key_selector output_func B1 o tsel e =
      entryPend key_selector output_func B2 o tsel e := by
  rw [entryPend, entryPend]
  by_cases ht : tsel e.2.1
  · rw [if_pos ht, if_pos ht]
    rw [List.map_congr_left (l := valsOf B1 (key_selector e.1))
      (g := fun v => if output_func e.1 v = o
            then countAt B2 (key_selector e.1) v e.2.1 * e.2.2 else 0)
      (fun v _ => by rw [countAt_perm h])]
    exact ((valsOf_perm h (key_selector e.1)).map _).sum_eq
  · rw [if_neg (by simpa using ht), if_neg (by simpa using ht)]

theorem runRounds_total [DecidableEq T] [DecidableEq K] [DecidableEq V]
    [DecidableEq O] [LinearOrder K] [Preorder T] [DecidableRel (fun a b : T => a ≤ b)]
    (key_selector : P → K) (output_func : P → V → O) (o : O) (tsel : T → Bool)
    (B0 : List (K × V × T × Int)) (rs : List (Round P K V T))
    (h2 : frontier2Ok rs = true) (h1 : frontier1Ok rs = true)
    (hl : lastClosed rs = true) :
    sumE o tsel (runRounds key_selector output_func ⟨[], some B0⟩ rs).2 =
      ((delivered rs).map
        (entryPend key_selector output_func (B0 ++ flatBatches rs) o tsel)).sum := by
  have hcons := runRounds_conservation key_selector output_func o tsel rs ⟨[], some B0⟩
    (B0 ++ flatBatches rs)
    (by intro C hC; injection hC with h; rw [h]) h2
  have hfin := runRounds_final_stash_nil key_selector output_func rs ⟨[], some B0⟩ h1 hl
    (by intro h; simp at h)
  rw [hfin] at hcons
  simpa [stashPend] using hcons

theorem entryPend_inj_eq [DecidableEq P] [DecidableEq K] [DecidableEq V] [DecidableEq O]
    [Preorder T] [DecidableRel (fun a b : T => a ≤ b)]
    (key_selector : P → K) (output_func : P → V → O)
    (Ball : List (K × V × T × Int)) (tsel : T → Bool) (p : P) (v : V)
    (hinj : ∀ x w, output_func x w = output_func p v → x = p ∧ w = v)
    (e : P × T × Int) :
    entryPend key_selector output_func Ball (output_func p v) tsel e =
      if e.1 = p ∧ tsel e.2.1 = true
      then countAt Ball (key_selector p) v e.2.1 * e.2.2 else 0 := by
  rw [entryPend]
  by_cases ht : tsel e.2.1
  · rw [if_pos ht]
    by_cases hp : e.1 = p
    · rw [hp]
      have hpt : ∀ w ∈ valsOf Ball (key_selector p),
          (if output_func p w = output_func p v
           then countAt Ball (key_selector p) w e.2.1 * e.2.2 else 0) =
          (if w = v then countAt Ball (key_selector p) v e.2.1 * e.2.2 else 0) := by
        intro w _
        by_cases hw : w = v
        · rw [hw]
          simp
        · have hne : output_func p w ≠ output_func p v := fun hc => hw (hinj p w hc).2
          rw [if_neg hne, if_neg hw]
      rw [List.map_congr_left hpt,
        sum_map_ite_eq_of_nodup (valsOf_nodup Ball (key_selector p)) v _]
      by_cases hv : v ∈ valsOf Ball (key_selector p)
      · rw [if_pos hv, if_pos ⟨rfl, ht⟩]
      · rw [if_neg hv, if_pos ⟨rfl, ht⟩, countAt_zero_of_not_mem_valsOf hv, zero_mul]
    · rw [if_neg (fun hc => hp hc.1)]
      apply List.sum_eq_zero
      intro x hx
      rw [List.mem_map] at hx
      obtain ⟨w, _, hwx⟩ := hx
      rw [← hwx]
      have hne : output_func e.1 w ≠ output_func p v := fun hc => hp ((hinj e.1 w hc).1)
      rw [if_neg hne]
  · rw [if_neg (by simpa using ht),
      if_neg (fun hc => (by simpa using ht : ¬ tsel e.2.1 = true) hc.2)]

/-! ## The claims -/

/-- C1, counterexample to the claim as stated: with a single prefix update
`(5, time 0, +1)` and a single arrangement update `(key 0, value 7, time 1, +1)`,
at `T = 1` the operator emits nothing (the cursor folds only trace times
`≤` the *entry's* time 0), while the claimed formula
`Σ_v multiplicity(Prefix, T) × multiplicity(Key→v, T)` evaluates to `1`. -/
theorem claim1_counterexample :
    ¬ (sumE ((5 : Nat), (7 : Nat)) (fun t => decide (t ≤ 1))
        (runRounds (fun _ => (0 : Nat)) (fun p v => (p, v))
          (⟨[], some []⟩ : OpState Nat Nat Nat Nat)
          ([⟨[(0, [(5, 0, 1)])], [[(0, 7, 1, 1)]], [], []⟩] :
            List (Round Nat Nat Nat Nat))).2
      = ((valsOf ([] ++ flatBatches
            ([⟨[(0, [(5, 0, 1)])], [[(0, 7, 1, 1)]], [], []⟩] :
              List (Round Nat Nat Nat Nat))) 0).map (fun w =>
          (((delivered ([⟨[(0, [(5, 0, 1)])], [[(0, 7, 1, 1)]], [], []⟩] :
                List (Round Nat Nat Nat Nat))).map
            (fun e => if e.1 = 5 ∧ e.2.1 ≤ 1 then e.2.2 else 0)).sum) *
          countAt ([] ++ flatBatches
            ([⟨[(0, [(5, 0, 1)])], [[(0, 7, 1, 1)]], [], []⟩] :
              List (Round Nat Nat Nat Nat))) 0 w 1)).sum) := by
  decide

/-- C1, amended: for every schedule obeying both frontier contracts and
fully flushed at the end, and for every injectively composed output
`output_func p v`, the sum of emitted diffs carried by that payload at
times `≤ q` equals the sum over the delivered prefix updates `(p, t, d)`
with `t ≤ q` of `count × d` where `count` is the multiplicity of `v` under
`p`'s key *as of the prefix update's own time `t`* (not as of `q`: the
operator joins each prefix update against the arrangement as of the
update's own time, so arrangement changes later than `t` never
contribute). -/
theorem claim1_join_as_of_prefix_time
    [DecidableEq P] [DecidableEq T] [DecidableEq K] [DecidableEq V] [DecidableEq O]
    [LinearOrder K] [Preorder T] [DecidableRel (fun a b : T => a ≤ b)]
    (key_selector : P → K) (output_func : P → V → O)
    (B0 : List (K × V × T × Int)) (rs : List (Round P K V T))
    (h2 : frontier2Ok rs = true) (h1 : frontier1Ok rs = true)
    (hl : lastClosed rs = true) (p : P) (v : V) (q : T)
    (hinj : ∀ x w, output_func x w = output_func p v → x = p ∧ w = v) :
    sumE (output_func p v) (fun t => decide (t ≤ q))
        (runRounds key_selector output_func ⟨[], some B0⟩ rs).2
      = ((delivered rs).map (fun e =>
          if e.1 = p ∧ e.2.1 ≤ q
          then countAt (B0 ++ flatBatches rs) (key_selector p) v e.2.1 * e.2.2
          else 0)).sum := by
  rw [runRounds_total key_selector output_func _ _ B0 rs h2 h1 hl]
  apply congrArg List.sum
  apply List.map_congr_left
  intro e _
  rw [entryPend_inj_eq key_selector output_func _ _ p v hinj e]
  by_cases hp : e.1 = p ∧ e.2.1 ≤ q
  · rw [if_pos ⟨hp.1, by simpa using hp.2⟩, if_pos hp]
  · rw [if_neg (fun hc => hp ⟨hc.1, by simpa using hc.2⟩), if_neg hp]

/-- Witness for C1 (amended): the specification's own example scenario.
A prefix update `(5, time 1, +1)` against a trace holding
`(key 0, value 7, time 0, +1)` and `(key 0, value 7, time 2, +1)` yields,
once time 1 closes, exactly the contribution counted as of time 1. -/
theorem claim1_join_as_of_prefix_time_witness :
    sumE ((5 : Nat), (7 : Nat)) (fun t => decide (t ≤ 3))
        (runRounds (fun _ => (0 : Nat)) (fun p v => (p, v))
          (⟨[], some [(0, 7, 0, 1), (0, 7, 2, 1)]⟩ : OpState Nat Nat Nat Nat)
          [⟨[(1, [(5, 1, 1)])], [], [2], [2]⟩, ⟨[], [], [], []⟩]).2
      = ((delivered ([⟨[(1, [(5, 1, 1)])], [], [2], [2]⟩, ⟨[], [], [], []⟩] :
            List (Round Nat Nat Nat Nat))).map
          (fun e => if e.1 = 5 ∧ e.2.1 ≤ 3
            then countAt ([(0, 7, 0, 1), (0, 7, 2, 1)] ++
              flatBatches ([⟨[(1, [(5, 1, 1)])], [], [2], [2]⟩, ⟨[], [], [], []⟩] :
                List (Round Nat Nat Nat Nat)))
              0 7 e.2.1 * e.2.2
            else 0)).sum :=
  claim1_join_as_of_prefix_time (fun _ => (0 : Nat)) (fun p v => (p, v))
    [(0, 7, 0, 1), (0, 7, 2, 1)]
    [⟨[(1, [(5, 1, 1)])], [], [2], [2]⟩, ⟨[], [], [], []⟩]
    (by decide) (by decide) (by decide) 5 7 3
    (by intro x w h; rw [Prod.mk.injEq] at h; exact ⟨h.1, h.2⟩)

/-- C2, counterexample to the claim as stated: the stash is never
consolidated (`stash.entry(..).extend(..)` appends), so an insertion
`(5, t=1, +1)` followed before closure by its retraction `(5, t=1, -1)`
leaves two separate buffered entries; at closure the operator emits a pair
of equal-and-opposite updates rather than nothing: `((5,7), 1, +1)` is
emitted. -/
theorem claim2_counterexample :
    ((5, 7), 1, 1) ∈ (roundStep (fun _ => (0 : Nat)) (fun p v => (p, v))
      (⟨[], some [(0, 7, 0, 1)]⟩ : OpState Nat Nat Nat Nat)
      ⟨[(1, [(5, 1, 1), (5, 1, -1)])], [], [2], [2]⟩).2 := by
  decide

/-- C2, amended: when an insertion `(p, t, d)` and its retraction
`(p, t, -d)` are both buffered at a capability whose time and whose
entries' time are closed by input (b)'s frontier, the round consumes both
entries (the stash is left empty) and their emissions cancel exactly: for
every output payload and every time selection the summed emitted diff is
`0`.  (The operator does not consolidate the buffer, so when the trace
count is non-zero it emits a pair of equal-and-opposite updates rather
than emitting nothing.) -/
theorem claim2_retraction_cancels_net [DecidableEq P] [DecidableEq T] [DecidableEq K]
    [DecidableEq V] [DecidableEq O] [LinearOrder K] [Preorder T]
    [DecidableRel (fun a b : T => a ≤ b)]
    (key_selector : P → K) (output_func : P → V → O)
    (B0 : List (K × V × T × Int)) (c : T) (p : P) (t : T) (d : Int)
    (f1 f2 : List T) (hc : frLE f2 c = false) (ht : frLE f2 t = false) :
    (∀ (o : O) (tsel : T → Bool),
      sumE o tsel (roundStep key_selector output_func ⟨[], some B0⟩
        ⟨[(c, [(p, t, d), (p, t, -d)])], [], f1, f2⟩).2 = 0) ∧
    (roundStep key_selector output_func ⟨[], some B0⟩
      ⟨[(c, [(p, t, d), (p, t, -d)])], [], f1, f2⟩).1.stash = [] := by
  have hall : ∀ e ∈ [(p, t, d), (p, t, -d)], frLE f2 e.2.1 = false := by
    intro e he
    rcases List.mem_cons.mp he with h | h
    · rw [h]; exact ht
    · rw [List.mem_singleton] at h
      rw [h]; exact ht
  have hb := processBucket_fst_nil_of_all_closed key_selector output_func f2
    (B0 ++ List.flatten ([] : List (List (K × V × T × Int)))) hall
  have hstash : (roundStep key_selector output_func ⟨[], some B0⟩
      ⟨[(c, [(p, t, d), (p, t, -d)])], [], f1, f2⟩).1.stash = [] := by
    rw [roundStep_some_eq key_selector output_func _ rfl]
    dsimp only
    rw [processStash]
    dsimp only
    have hdr : drainStash ([] : List (T × List (P × T × Int)))
        [(c, [(p, t, d), (p, t, -d)])] = [(c, [(p, t, d), (p, t, -d)])] := rfl
    rw [hdr, List.map_cons, List.map_nil, if_neg (by simp [hc]), hb]
    rfl
  refine ⟨?_, hstash⟩
  intro o tsel
  have h := roundStep_conservation_some key_selector output_func o tsel
    ⟨[(c, [(p, t, d), (p, t, -d)])], [], f1, f2⟩
    (rfl : (⟨[], some B0⟩ : OpState P K V T).trace = some B0) []
    (by intro u hu; exact absurd hu (List.not_mem_nil u))
  rw [hstash] at h
  have hcancel := entryPend_add_neg key_selector output_func
    ((B0 ++ List.flatten ([] : List (List (K × V × T × Int)))) ++ [])
    o tsel p t d
  simp only [stashPend, bucketPend, List.map_cons, List.map_nil, List.sum_cons,
    List.sum_nil] at h
  omega

/-- Witness for C2 (amended): the specification's retraction scenario at
concrete inputs. -/
theorem claim2_retraction_cancels_net_witness :
    (∀ (o : Nat × Nat) (tsel : Nat → Bool),
      sumE o tsel (roundStep (fun _ => (0 : Nat)) (fun p v => (p, v))
        (⟨[], some [(0, 7, 0, 1)]⟩ : OpState Nat Nat Nat Nat)
        ⟨[(1, [(5, 1, 1), (5, 1, -1)])], [], [2], [2]⟩).2 = 0) ∧
    (roundStep (fun _ => (0 : Nat)) (fun p v => (p, v))
      (⟨[], some [(0, 7, 0, 1)]⟩ : OpState Nat Nat Nat Nat)
      ⟨[(1, [(5, 1, 1), (5, 1, -1)])], [], [2], [2]⟩).1.stash = [] :=
  claim2_retraction_cancels_net (fun _ => (0 : Nat)) (fun p v => (p, v))
    [(0, 7, 0, 1)] 1 5 1 1 [2] [2] (by decide) (by decide)

/-- C3: every update emitted in a round carries a time that is closed by
input (b)'s frontier as observed in that round — buckets are processed
only at closed capabilities, entries only at closed times, so no output is
ever produced at an unclosed time. -/
theorem claim3_no_early_emission [DecidableEq T] [DecidableEq K] [DecidableEq V]
    [LinearOrder K] [Preorder T] [DecidableRel (fun a b : T => a ≤ b)]
    (key_selector : P → K) (output_func : P → V → O)
    (s : OpState P K V T) (r : Round P K V T) (u : O × T × Int)
    (hu : u ∈ (roundStep key_selector output_func s r).2) :
    frLE r.frontier2 u.2.1 = false :=
  (mem_roundStep_out hu).1

/-- Witness for C3 at the specification's example round. -/
theorem claim3_no_early_emission_witness :
    frLE [2] (1 : Nat) = false :=
  claim3_no_early_emission (fun _ => (0 : Nat)) (fun p v => (p, v))
    (⟨[], some [(0, 7, 0, 1)]⟩ : OpState Nat Nat Nat Nat)
    ⟨[(1, [(5, 1, 1)])], [], [2], [2]⟩ ((5, 7), 1, 1) (by decide)

/-- C4: processing a stash entry whose time is closed zeroes the entry's
diff in place; if the extracted key is absent from the trace nothing is
emitted; and the emitted updates are exactly, for each value stored under
the key, `(output_func prefix value, entry time, count * diff)` whenever
that product is non-zero, where `count` folds the trace's diffs at times
`≤` the entry's time. -/
theorem claim4_entry_processing [DecidableEq K] [DecidableEq V] [Preorder T]
    [DecidableRel (fun a b : T => a ≤ b)]
    (key_selector : P → K) (output_func : P → V → O) (f2 : List T)
    (B : List (K × V × T × Int)) (e : P × T × Int)
    (hcl : frLE f2 e.2.1 = false) :
    (processEntry key_selector output_func f2 B e).1 = (e.1, e.2.1, 0) ∧
    (keyPresent B (key_selector e.1) = false →
      (processEntry key_selector output_func f2 B e).2 = []) ∧
    (∀ u, u ∈ (processEntry key_selector output_func f2 B e).2 ↔
      ∃ v ∈ valsOf B (key_selector e.1),
        u = (output_func e.1 v, e.2.1, countAt B (key_selector e.1) v e.2.1 * e.2.2) ∧
        countAt B (key_selector e.1) v e.2.1 * e.2.2 ≠ 0) := by
  refine ⟨processEntry_closed_fst _ _ _ _ hcl, ?_, ?_⟩
  · intro hk
    rw [processEntry_closed_snd _ _ _ _ hcl, valsOf_nil_of_keyAbsent hk]
    rfl
  · intro u
    rw [processEntry_closed_snd _ _ _ _ hcl]
    exact mem_emitVals

/-- Witness for C4: a closed entry of diff 2 against a trace with two
values under its key. -/
theorem claim4_entry_processing_witness :
    (processEntry (fun _ => (0 : Nat)) (fun p v => (p, v)) [2]
      [(0, 7, 0, 1), (0, 9, 0, -1)] ((5 : Nat), (1 : Nat), (2 : Int))).1 = (5, 1, 0) ∧
    (keyPresent [(0, 7, 0, 1), (0, 9, 0, -1)] ((fun _ => (0 : Nat)) 5) = false →
      (processEntry (fun _ => (0 : Nat)) (fun p v => (p, v)) [2]
        [(0, 7, 0, 1), (0, 9, 0, -1)] ((5 : Nat), (1 : Nat), (2 : Int))).2 = []) ∧
    (∀ u, u ∈ (processEntry (fun _ => (0 : Nat)) (fun p v => (p, v)) [2]
        [(0, 7, 0, 1), (0, 9, 0, -1)] ((5 : Nat), (1 : Nat), (2 : Int))).2 ↔
      ∃ v ∈ valsOf [(0, 7, 0, 1), (0, 9, 0, -1)] ((fun _ => (0 : Nat)) 5),
        u = ((5, v), 1, countAt [(0, 7, 0, 1), (0, 9, 0, -1)] 0 v 1 * 2) ∧
        countAt [(0, 7, 0, 1), (0, 9, 0, -1)] 0 v 1 * 2 ≠ 0) :=
  claim4_entry_processing (fun _ => (0 : Nat)) (fun p v => (p, v)) [2]
    [(0, 7, 0, 1), (0, 9, 0, -1)] ((5 : Nat), (1 : Nat), (2 : Int)) (by decide)

/-- C5: in a round whose input (a) frontier is empty and whose resulting
stash is empty, the operator releases the trace handle; the released state
is absorbing: over any subsequent schedule the handle stays absent and no
output is ever emitted again. -/
theorem claim5_termination [DecidableEq T] [DecidableEq K] [DecidableEq V]
    [LinearOrder K] [Preorder T] [DecidableRel (fun a b : T => a ≤ b)]
    (key_selector : P → K) (output_func : P → V → O)
    (s : OpState P K V T) (r : Round P K V T)
    (h1 : r.frontier1 = [])
    (hst : (roundStep key_selector output_func s r).1.stash = []) :
    (roundStep key_selector output_func s r).1.trace = none ∧
    ∀ rs, (runRounds key_selector output_func
            (roundStep key_selector output_func s r).1 rs).1.trace = none ∧
          (runRounds key_selector output_func
            (roundStep key_selector output_func s r).1 rs).2 = [] := by
  have htr : (roundStep key_selector output_func s r).1.trace = none := by
    cases hs : s.trace with
    | none => rw [roundStep_none_eq key_selector output_func r hs]
    | some C =>
        rw [roundStep_some_eq key_selector output_func r hs] at hst ⊢
        dsimp only at hst ⊢
        rw [if_pos (by rw [hst, h1]; rfl)]
  exact ⟨htr, fun rs => runRounds_of_trace_none key_selector output_func rs _ htr⟩

/-- Witness for C5 at a concrete empty round. -/
theorem claim5_termination_witness :
    (roundStep (fun _ => (0 : Nat)) (fun p v => ((p, v) : Nat × Nat))
      (⟨[], some []⟩ : OpState Nat Nat Nat Nat) ⟨[], [], [], []⟩).1.trace = none ∧
    ∀ rs, (runRounds (fun _ => (0 : Nat)) (fun p v => ((p, v) : Nat × Nat))
            (roundStep (fun _ => (0 : Nat)) (fun p v => ((p, v) : Nat × Nat))
              (⟨[], some []⟩ : OpState Nat Nat Nat Nat) ⟨[], [], [], []⟩).1 rs).1.trace
            = none ∧
          (runRounds (fun _ => (0 : Nat)) (fun p v => ((p, v) : Nat × Nat))
            (roundStep (fun _ => (0 : Nat)) (fun p v => ((p, v) : Nat × Nat))
              (⟨[], some []⟩ : OpState Nat Nat Nat Nat) ⟨[], [], [], []⟩).1 rs).2 = [] :=
  claim5_termination (fun _ => (0 : Nat)) (fun p v => ((p, v) : Nat × Nat))
    (⟨[], some []⟩ : OpState Nat Nat Nat Nat) ⟨[], [], [], []⟩ rfl (by decide)

/-- C6, counterexample to the claim as stated: a delivered update may
carry a zero diff, and a bucket whose capability time is *not* closed is
not processed and not pruned in that round (`prefixes.retain` runs only
inside the processed branch), so the zero-diff entry survives the round in
the stash. -/
theorem claim6_counterexample :
    (9, 3, 0) ∈ allEntries (roundStep (fun _ => (0 : Nat)) (fun p v => ((p, v) : Nat × Nat))
      (⟨[], some []⟩ : OpState Nat Nat Nat Nat)
      ⟨[(5, [(9, 3, 0)])], [], [0], [0]⟩).1.stash := by
  decide

/-- C6, amended: no emitted update ever carries a zero diff; and provided
no buffered entry and no delivered update carries a zero diff, no stash
bucket retains a zero-diff entry at the end of the round (processed
buckets are pruned by `retain`; unprocessed buckets hold only delivered
entries, which are non-zero by hypothesis). -/
theorem claim6_zero_pruning [DecidableEq T] [DecidableEq K] [DecidableEq V]
    [LinearOrder K] [Preorder T] [DecidableRel (fun a b : T => a ≤ b)]
    (key_selector : P → K) (output_func : P → V → O)
    (s : OpState P K V T) (r : Round P K V T)
    (hstash : ∀ e ∈ allEntries s.stash, e.2.2 ≠ 0)
    (hin : ∀ cd ∈ r.input1, ∀ e ∈ cd.2, e.2.2 ≠ 0) :
    (∀ u ∈ (roundStep key_selector output_func s r).2, u.2.2 ≠ 0) ∧
    (∀ e ∈ allEntries (roundStep key_selector output_func s r).1.stash, e.2.2 ≠ 0) := by
  constructor
  · intro u hu
    exact (mem_roundStep_out hu).2
  · intro e he
    rcases mem_roundStep_stash he with h | h
    · exact h
    · rcases mem_drainStash h with h' | ⟨cd, hcd, he'⟩
      · exact hstash e h'
      · exact hin cd hcd e he'

/-- Witness for C6 (amended) at a concrete non-degenerate round. -/
theorem claim6_zero_pruning_witness :
    (∀ u ∈ (roundStep (fun _ => (0 : Nat)) (fun p v => ((p, v) : Nat × Nat))
      (⟨[], some [(0, 7, 0, 1)]⟩ : OpState Nat Nat Nat Nat)
      ⟨[(1, [(5, 1, 1)]), (4, [(6, 4, -2)])], [], [2], [2]⟩).2, u.2.2 ≠ 0) ∧
    (∀ e ∈ allEntries (roundStep (fun _ => (0 : Nat)) (fun p v => ((p, v) : Nat × Nat))
      (⟨[], some [(0, 7, 0, 1)]⟩ : OpState Nat Nat Nat Nat)
      ⟨[(1, [(5, 1, 1)]), (4, [(6, 4, -2)])], [], [2], [2]⟩).1.stash, e.2.2 ≠ 0) :=
  claim6_zero_pruning (fun _ => (0 : Nat)) (fun p v => ((p, v) : Nat × Nat))
    (⟨[], some [(0, 7, 0, 1)]⟩ : OpState Nat Nat Nat Nat)
    ⟨[(1, [(5, 1, 1)]), (4, [(6, 4, -2)])], [], [2], [2]⟩ (by decide) (by decide)

/-- C7, counterexample to the claim as stated: a zero-diff entry whose own
time is still open, sitting in a bucket whose capability time is closed,
does *not* remain in the bucket — the final `retain` drops it (and the
then-empty bucket is removed), even though the claim asserts every
open-time entry of a processed bucket remains for a future round. -/
theorem claim7_counterexample :
    frLE [2] (3 : Nat) = true ∧
    frLE [2] (0 : Nat) = false ∧
    (roundStep (fun _ => (0 : Nat)) (fun p v => ((p, v) : Nat × Nat))
      (⟨[], some []⟩ : OpState Nat Nat Nat Nat)
      ⟨[(0, [(9, 3, 0)])], [], [2], [2]⟩).1.stash = [] := by
  decide

/-- C7, amended: in a processed bucket, every entry whose own time is
still open *and whose diff is non-zero* is carried into the next round
unmodified: the retained bucket is exactly (up to the key-sort
permutation) the sublist of open-time non-zero entries, the entry itself
is still present, and no update emitted from the bucket carries the
entry's (open) time.  An open-time entry whose diff is already zero is
instead dropped by the final `retain`. -/
theorem claim7_frame_open_entries [DecidableEq P] [DecidableEq T] [DecidableEq K]
    [DecidableEq V] [LinearOrder K] [Preorder T] [DecidableRel (fun a b : T => a ≤ b)]
    (key_selector : P → K) (output_func : P → V → O) (f2 : List T)
    (B : List (K × V × T × Int)) (b : List (P × T × Int)) (e : P × T × Int)
    (he : e ∈ b) (hopen : frLE f2 e.2.1 = true) (hd : e.2.2 ≠ 0) :
    e ∈ (processBucket key_selector output_func f2 B b).1 ∧
    ((processBucket key_selector output_func f2 B b).1).Perm
      (b.filter (fun x => frLE f2 x.2.1 && decide (x.2.2 ≠ 0))) ∧
    (∀ u ∈ (processBucket key_selector output_func f2 B b).2, u.2.1 ≠ e.2.1) := by
  have hperm := processBucket_fst_perm_filter key_selector output_func f2 B b
  refine ⟨?_, hperm, ?_⟩
  · apply hperm.mem_iff.mpr
    apply List.mem_filter.mpr
    refine ⟨he, ?_⟩
    rw [hopen, Bool.true_and]
    simpa using hd
  · intro u hu hequ
    have hcl := (mem_processBucket_snd_closed hu).1
    rw [hequ, hopen] at hcl
    exact absurd hcl (by simp)

/-- Witness for C7 (amended): a non-zero open-time entry survives its
bucket's processing untouched. -/
theorem claim7_frame_open_entries_witness :
    (9, 3, 5) ∈ (processBucket (fun _ => (0 : Nat)) (fun p v => ((p, v) : Nat × Nat)) [2]
      [(0, 7, 0, 1)] [(9, 3, 5), (5, 1, 1)]).1 ∧
    ((processBucket (fun _ => (0 : Nat)) (fun p v => ((p, v) : Nat × Nat)) [2]
      [(0, 7, 0, 1)] [(9, 3, 5), (5, 1, 1)]).1).Perm
      ([(9, 3, 5), (5, 1, 1)].filter (fun x => frLE [2] x.2.1 && decide (x.2.2 ≠ 0))) ∧
    (∀ u ∈ (processBucket (fun _ => (0 : Nat)) (fun p v => ((p, v) : Nat × Nat)) [2]
      [(0, 7, 0, 1)] [(9, 3, 5), (5, 1, 1)]).2, u.2.1 ≠ (9, 3, 5).2.1) :=
  claim7_frame_open_entries (fun _ => (0 : Nat)) (fun p v => ((p, v) : Nat × Nat)) [2]
    [(0, 7, 0, 1)] [(9, 3, 5), (5, 1, 1)] (9, 3, 5) (by decide) (by decide) (by decide)

/-- C8: two schedules that each obey the frontier contracts and are fully
flushed, and that deliver the same multiset of prefix updates and the same
multiset of arrangement updates (in any per-round grouping and order),
produce outputs that are equal as a sum: for every payload and every time
selection, the summed emitted diff is identical. -/
theorem claim8_order_independence [DecidableEq P] [DecidableEq T] [DecidableEq K]
    [DecidableEq V] [DecidableEq O] [LinearOrder K] [Preorder T]
    [DecidableRel (fun a b : T => a ≤ b)]
    (key_selector : P → K) (output_func : P → V → O)
    (B0 : List (K × V × T × Int)) (rs₁ rs₂ : List (Round P K V T))
    (h2a : frontier2Ok rs₁ = true) (h1a : frontier1Ok rs₁ = true)
    (hla : lastClosed rs₁ = true)
    (h2b : frontier2Ok rs₂ = true) (h1b : frontier1Ok rs₂ = true)
    (hlb : lastClosed rs₂ = true)
    (hpd : (delivered rs₁).Perm (delivered rs₂))
    (hpb : (flatBatches rs₁).Perm (flatBatches rs₂))
    (o : O) (tsel : T → Bool) :
    sumE o tsel (runRounds key_selector output_func ⟨[], some B0⟩ rs₁).2 =
      sumE o tsel (runRounds key_selector output_func ⟨[], some B0⟩ rs₂).2 := by
  rw [runRounds_total key_selector output_func o tsel B0 rs₁ h2a h1a hla,
      runRounds_total key_selector output_func o tsel B0 rs₂ h2b h1b hlb]
  have hBall : (B0 ++ flatBatches rs₁).Perm (B0 ++ flatBatches rs₂) :=
    List.Perm.append_left B0 hpb
  have hstep : ((delivered rs₁).map
        (entryPend key_selector output_func (B0 ++ flatBatches rs₁) o tsel)).sum =
      ((delivered rs₁).map
        (entryPend key_selector output_func (B0 ++ flatBatches rs₂) o tsel)).sum := by
    apply congrArg List.sum
    apply List.map_congr_left
    intro e _
    exact entryPend_perm key_selector output_func hBall o tsel e
  rw [hstep]
  exact (hpd.map _).sum_eq

/-- Witness for C8: the same two deliveries arrive grouped into two rounds
or reordered into a single round. -/
theorem claim8_order_independence_witness :
    sumE ((5, 7) : Nat × Nat) (fun t => decide (t ≤ 9))
      (runRounds (fun _ => (0 : Nat)) (fun p v => (p, v))
        (⟨[], some []⟩ : OpState Nat Nat Nat Nat)
        [⟨[(1, [(5, 1, 1)])], [[(0, 7, 0, 1)]], [2], [2]⟩,
         ⟨[(2, [(6, 2, 1)])], [], [], []⟩]).2 =
    sumE ((5, 7) : Nat × Nat) (fun t => decide (t ≤ 9))
      (runRounds (fun _ => (0 : Nat)) (fun p v => (p, v))
        (⟨[], some []⟩ : OpState Nat Nat Nat Nat)
        [⟨[(2, [(6, 2, 1)]), (1, [(5, 1, 1)])], [[(0, 7, 0, 1)]], [], []⟩]).2 :=
  claim8_order_independence (fun _ => (0 : Nat)) (fun p v => (p, v)) []
    [⟨[(1, [(5, 1, 1)])], [[(0, 7, 0, 1)]], [2], [2]⟩, ⟨[(2, [(6, 2, 1)])], [], [], []⟩]
    [⟨[(2, [(6, 2, 1)]), (1, [(5, 1, 1)])], [[(0, 7, 0, 1)]], [], []⟩]
    (by decide) (by decide) (by decide) (by decide) (by decide) (by decide)
    (by decide) (by decide) ((5, 7) : Nat × Nat) (fun t => decide (t ≤ 9))

/-- C9: `propose` is the specialization of `propose_then` whose key
function overwrites the key buffer with `key_selector(p)` and whose output
function pairs the prefix with the value; on every schedule the two
produce identical states and identical emitted updates. -/
theorem claim9_propose_specializes [DecidableEq T] [DecidableEq K] [DecidableEq V]
    [LinearOrder K] [Preorder T] [DecidableRel (fun a b : T => a ≤ b)]
    (key_selector : P → K) (s : OpState P K V T) (rs : List (Round P K V T)) :
    runPropose key_selector s rs =
      runRounds (fun p => key_selector p) (fun p v => (p, v)) s rs := rfl

/-- C10: after a round (with the trace handle held) every bucket that
remains at a capability time closed by input (b)'s frontier holds only
entries whose own time is still open and whose diff is non-zero: every
closed-time entry was consumed (zeroed and removed) in the round, even
when its key was absent from the trace. -/
theorem claim10_closed_bucket_residue [DecidableEq T] [DecidableEq K] [DecidableEq V]
    [LinearOrder K] [Preorder T] [DecidableRel (fun a b : T => a ≤ b)]
    (key_selector : P → K) (output_func : P → V → O)
    (s : OpState P K V T) (r : Round P K V T) (C : List (K × V × T × Int))
    (hs : s.trace = some C)
    (cb : T × List (P × T × Int))
    (hcb : cb ∈ (roundStep key_selector output_func s r).1.stash)
    (hclosed : frLE r.frontier2 cb.1 = false)
    (e : P × T × Int) (he : e ∈ cb.2) :
    frLE r.frontier2 e.2.1 = true ∧ e.2.2 ≠ 0 := by
  rw [roundStep_some_eq key_selector output_func r hs] at hcb
  dsimp only at hcb
  have hcb' := (List.mem_filter.mp hcb).1
  rw [processStash] at hcb'
  dsimp only at hcb'
  rw [List.mem_map] at hcb'
  obtain ⟨cb0, _, hcb0⟩ := hcb'
  by_cases hc : frLE r.frontier2 cb0.1
  · rw [if_pos hc] at hcb0
    rw [hcb0] at hc
    rw [hclosed] at hc
    exact absurd hc (by simp)
  · rw [if_neg hc] at hcb0
    have he' : e ∈ (processBucket key_selector output_func r.frontier2
        (C ++ r.batches.flatten) cb0.2).1 := by
      rw [← hcb0] at he
      exact he
    have hf := mem_processBucket_fst he'
    exact ⟨hf.1, hf.2.1⟩

/-- Witness for C10: a closed-capability bucket survives a round only with
its open-time, non-zero entry. -/
theorem claim10_closed_bucket_residue_witness :
    frLE [2] (3 : Nat) = true ∧ (5 : Int) ≠ 0 :=
  claim10_closed_bucket_residue (fun _ => (0 : Nat)) (fun p v => ((p, v) : Nat × Nat))
    (⟨[], some []⟩ : OpState Nat Nat Nat Nat) ⟨[(0, [(9, 3, 5)])], [], [2], [2]⟩
    [] rfl (0, [(9, 3, 5)]) (by decide) (by decide) (9, 3, 5) (by decide)

end Propose
